import Mathlib

/-!
Verification of the GOST2-128 CBC file encryptor (`gost2-128-cbc.c`).

The C source is shallowly embedded: bytes are `Nat` values (< 256 where the
C type is `unsigned char`), 64-bit machine words are `Nat` with explicit
`% 2 ^ 64` at the points where the C code wraps, arrays are `List Nat` or
functions `Nat → Nat`, and the streaming file I/O is modelled as functions
over the full byte sequence, mirroring the chunked loops of the C code.
-/

set_option maxRecDepth 8000

namespace Gost2128

/-- Nibble substitution table `k1` from the C source. -/
def k1 : List Nat := [0x4,0xA,0x9,0x2,0xD,0x8,0x0,0xE,0x6,0xB,0x1,0xC,0x7,0xF,0x5,0x3]

/-- Nibble substitution table `k2` from the C source. -/
def k2 : List Nat := [0xE,0xB,0x4,0xC,0x6,0xD,0xF,0xA,0x2,0x3,0x8,0x1,0x0,0x7,0x5,0x9]

/-- Nibble substitution table `k3` from the C source. -/
def k3 : List Nat := [0x5,0x8,0x1,0xD,0xA,0x3,0x4,0x2,0xE,0xF,0xC,0x7,0x6,0x0,0x9,0xB]

/-- Nibble substitution table `k4` from the C source. -/
def k4 : List Nat := [0x7,0xD,0xA,0x1,0x0,0x8,0x9,0xF,0xE,0x4,0x6,0xC,0xB,0x2,0x5,0x3]

/-- Nibble substitution table `k5` from the C source. -/
def k5 : List Nat := [0x6,0xC,0x7,0x1,0x5,0xF,0xD,0x8,0x4,0xA,0x9,0xE,0x0,0x3,0xB,0x2]

/-- Nibble substitution table `k6` from the C source. -/
def k6 : List Nat := [0x4,0xB,0xA,0x0,0x7,0x2,0x1,0xD,0x3,0x6,0x8,0x5,0x9,0xC,0xF,0xE]

/-- Nibble substitution table `k7` from the C source. -/
def k7 : List Nat := [0xD,0xB,0x4,0x1,0x3,0xF,0x5,0x9,0x0,0xA,0xE,0x7,0x6,0x8,0x2,0xC]

/-- Nibble substitution table `k8` from the C source. -/
def k8 : List Nat := [0x1,0xF,0xD,0x0,0x5,0x7,0xA,0x4,0x9,0x2,0x3,0xE,0x6,0xB,0x8,0xC]

/-- Nibble substitution table `k9` from the C source. -/
def k9 : List Nat := [0xC,0x4,0x6,0x2,0xA,0x5,0xB,0x9,0xE,0x8,0xD,0x7,0x0,0x3,0xF,0x1]

/-- Nibble substitution table `k10` from the C source. -/
def k10 : List Nat := [0x6,0x8,0x2,0x3,0x9,0xA,0x5,0xC,0x1,0xE,0x4,0x7,0xB,0xD,0x0,0xF]

/-- Nibble substitution table `k11` from the C source. -/
def k11 : List Nat := [0xB,0x3,0x5,0x8,0x2,0xF,0xA,0xD,0xE,0x1,0x7,0x4,0xC,0x9,0x6,0x0]

/-- Nibble substitution table `k12` from the C source. -/
def k12 : List Nat := [0xC,0x8,0x2,0x1,0xD,0x4,0xF,0x6,0x7,0x0,0xA,0x5,0x3,0xE,0x9,0xB]

/-- Nibble substitution table `k13` from the C source. -/
def k13 : List Nat := [0x7,0xF,0x5,0xA,0x8,0x1,0x6,0xD,0x0,0x9,0x3,0xE,0xB,0x4,0x2,0xC]

/-- Nibble substitution table `k14` from the C source. -/
def k14 : List Nat := [0x5,0xD,0xF,0x6,0x9,0x2,0xC,0xA,0xB,0x7,0x8,0x1,0x4,0x3,0xE,0x0]

/-- Nibble substitution table `k15` from the C source. -/
def k15 : List Nat := [0x8,0xE,0x2,0x5,0x6,0x9,0x1,0xC,0xF,0x4,0xB,0x0,0xD,0xA,0x3,0x7]

/-- Nibble substitution table `k16` from the C source. -/
def k16 : List Nat := [0x1,0x7,0xE,0xD,0x0,0x5,0x8,0x3,0x4,0xF,0xA,0x6,0x9,0xC,0xB,0x2]

/-- Combination of two nibble tables into one 256-entry byte table, as
computed by `kboxinit`: `hi[i >> 4] << 4 | lo[i & 15]`. -/
def combineTables (hi lo : List Nat) (i : Nat) : Nat :=
  ((hi.getD (i >>> 4) 0) <<< 4) ||| lo.getD (i &&& 15) 0

/-- Byte table `k175` computed by `kboxinit`. -/
def k175 : Nat → Nat := combineTables k16 k15

/-- Byte table `k153` computed by `kboxinit`. -/
def k153 : Nat → Nat := combineTables k14 k13

/-- Byte table `k131` computed by `kboxinit`. -/
def k131 : Nat → Nat := combineTables k12 k11

/-- Byte table `k109` computed by `kboxinit`. -/
def k109 : Nat → Nat := combineTables k10 k9

/-- Byte table `k87` computed by `kboxinit`. -/
def k87 : Nat → Nat := combineTables k8 k7

/-- Byte table `k65` computed by `kboxinit`. -/
def k65 : Nat → Nat := combineTables k6 k5

/-- Byte table `k43` computed by `kboxinit`. -/
def k43 : Nat → Nat := combineTables k4 k3

/-- Byte table `k21` computed by `kboxinit`. -/
def k21 : Nat → Nat := combineTables k2 k1

/-- Round function `f` of GOST2-128, translated from the C source:
split the 64-bit argument into halves, substitute each byte through its
designated combined table, reassemble, rotate left by 11 bits. -/
def f (x : Nat) : Nat :=
  let y := x >>> 32
  let z := x &&& 0xffffffff
  let y1 := ((k87 ((y >>> 24) &&& 255)) <<< 24) ||| (((k65 ((y >>> 16) &&& 255)) <<< 16) |||
            (((k43 ((y >>> 8) &&& 255)) <<< 8) ||| (k21 (y &&& 255))))
  let z1 := ((k175 ((z >>> 24) &&& 255)) <<< 24) ||| (((k153 ((z >>> 16) &&& 255)) <<< 16) |||
            (((k131 ((z >>> 8) &&& 255)) <<< 8) ||| (k109 (z &&& 255))))
  let w := (y1 <<< 32) ||| (z1 &&& 0xffffffff)
  ((w <<< 11) % 2 ^ 64) ||| (w >>> 53)

/-- One round of `gostcrypt`: `b ^= f(a + key[2i]); a ^= f(b + key[2i+1])`,
with 64-bit wrap-around addition. -/
def gostRound (key : Nat → Nat) (i : Nat) (ab : Nat × Nat) : Nat × Nat :=
  ((ab.1 ^^^ f (((ab.2 ^^^ f ((ab.1 + key (2 * i)) % 2 ^ 64)) + key (2 * i + 1)) % 2 ^ 64)),
   ab.2 ^^^ f ((ab.1 + key (2 * i)) % 2 ^ 64))

/-- Iterated encryption rounds: `gostRounds key n` applies rounds
`0, 1, ..., n-1` in order. -/
def gostRounds (key : Nat → Nat) : Nat → Nat × Nat → Nat × Nat
  | 0, ab => ab
  | n + 1, ab => gostRound key n (gostRounds key n ab)

/-- Block encryption `gostcrypt`: 32 rounds, then the halves are emitted
swapped (`out[0] = b; out[1] = a`). -/
def gostcrypt (key : Nat → Nat) (x : Nat × Nat) : Nat × Nat :=
  (gostRounds key 32 x).swap

/-- One round of `gostdecrypt`: same as an encryption round but consuming
subkeys downward (`key[k--]` starting at 63). -/
def gostDecRound (key : Nat → Nat) (i : Nat) (ab : Nat × Nat) : Nat × Nat :=
  ((ab.1 ^^^ f (((ab.2 ^^^ f ((ab.1 + key (63 - 2 * i)) % 2 ^ 64)) + key (62 - 2 * i)) % 2 ^ 64)),
   ab.2 ^^^ f ((ab.1 + key (63 - 2 * i)) % 2 ^ 64))

/-- Iterated decryption rounds. -/
def gostDecRounds (key : Nat → Nat) : Nat → Nat × Nat → Nat × Nat
  | 0, ab => ab
  | n + 1, ab => gostDecRound key n (gostDecRounds key n ab)

/-- Block decryption `gostdecrypt`: 32 rounds with reversed subkey order,
halves swapped on output. -/
def gostdecrypt (key : Nat → Nat) (x : Nat × Nat) : Nat × Nat :=
  (gostDecRounds key 32 x).swap

lemma xor_cancel_right (a b : Nat) : (a ^^^ b) ^^^ b = a := by
  rw [Nat.xor_assoc, Nat.xor_self, Nat.xor_zero]

lemma gostDecRounds_gostRounds (key : Nat → Nat) (x : Nat × Nat) :
    ∀ j, j ≤ 32 →
      gostDecRounds key j (gostRounds key 32 x).swap = (gostRounds key (32 - j) x).swap := by
  intro j
  induction j with
  | zero => intro _; rfl
  | succ j ih =>
    intro hj
    have hk : 32 - j = (31 - j) + 1 := by omega
    have h63 : 63 - 2 * j = 2 * (31 - j) + 1 := by omega
    have h62 : 62 - 2 * j = 2 * (31 - j) := by omega
    have hstep : gostDecRounds key (j + 1) (gostRounds key 32 x).swap
        = gostDecRound key j (gostDecRounds key j (gostRounds key 32 x).swap) := rfl
    have hk2 : 32 - (j + 1) = 31 - j := by omega
    rw [hstep, ih (by omega), hk, hk2]
    rw [show gostRounds key (31 - j + 1) x
        = gostRound key (31 - j) (gostRounds key (31 - j) x) from rfl]
    set ab := gostRounds key (31 - j) x with hab
    simp only [gostDecRound, gostRound, Prod.swap, h63, h62]
    simp only [xor_cancel_right]

/-- Decryption rounds undo encryption rounds completely. -/
lemma gostdecrypt_gostcrypt (key : Nat → Nat) (x : Nat × Nat) :
    gostdecrypt key (gostcrypt key x) = x := by
  have h := gostDecRounds_gostRounds key x 32 (le_refl 32)
  simp only [gostdecrypt, gostcrypt, h, Nat.sub_self]
  rfl

lemma getD_lt_of_forall {l : List Nat} {m : Nat} (hm : 0 < m) (hl : ∀ x ∈ l, x < m)
    (j : Nat) : l.getD j 0 < m := by
  by_cases h : j < l.length
  · rw [List.getD_eq_getElem l 0 h]
    exact hl _ (List.getElem_mem h)
  · rw [List.getD_eq_default l 0 (by omega)]
    exact hm

lemma combineTables_lt {hi lo : List Nat} (hhi : ∀ x ∈ hi, x < 16) (hlo : ∀ x ∈ lo, x < 16)
    (i : Nat) : combineTables hi lo i < 256 := by
  have h1 : hi.getD (i >>> 4) 0 < 16 := getD_lt_of_forall (by omega) hhi _
  have h2 : lo.getD (i &&& 15) 0 < 16 := getD_lt_of_forall (by omega) hlo _
  have h256 : (256 : Nat) = 2 ^ 8 := by norm_num
  rw [combineTables, h256]
  exact Nat.or_lt_two_pow (by rw [Nat.shiftLeft_eq]; omega) (by omega)

lemma k175_lt (i : Nat) : k175 i < 256 := combineTables_lt (by decide) (by decide) i

lemma k153_lt (i : Nat) : k153 i < 256 := combineTables_lt (by decide) (by decide) i

lemma k131_lt (i : Nat) : k131 i < 256 := combineTables_lt (by decide) (by decide) i

lemma k109_lt (i : Nat) : k109 i < 256 := combineTables_lt (by decide) (by decide) i

lemma k87_lt (i : Nat) : k87 i < 256 := combineTables_lt (by decide) (by decide) i

lemma k65_lt (i : Nat) : k65 i < 256 := combineTables_lt (by decide) (by decide) i

lemma k43_lt (i : Nat) : k43 i < 256 := combineTables_lt (by decide) (by decide) i

lemma k21_lt (i : Nat) : k21 i < 256 := combineTables_lt (by decide) (by decide) i

lemma or_mul_eq_add (a : Nat) {b k : Nat} (hb : b < 2 ^ k) :
    (a * 2 ^ k) ||| b = a * 2 ^ k + b := by
  calc a * 2 ^ k ||| b = 2 ^ k * a ||| b := by rw [mul_comm]
    _ = 2 ^ k * a + b := (Nat.mul_add_lt_is_or hb a).symm
    _ = a * 2 ^ k + b := by rw [mul_comm]

lemma and255_eq_mod (v : Nat) : v &&& 255 = v % 256 := by
  have h : (255 : Nat) = 2 ^ 8 - 1 := by norm_num
  rw [h, Nat.and_pow_two_sub_one_eq_mod]

lemma and32_eq_mod (v : Nat) : v &&& 0xffffffff = v % 2 ^ 32 := by
  have h : (0xffffffff : Nat) = 2 ^ 32 - 1 := by norm_num
  rw [h, Nat.and_pow_two_sub_one_eq_mod]

/-- Extraction of byte `j` (little-endian position) of a machine word,
used only to phrase the specification-side round function. -/
def byteOf (j v : Nat) : Nat := v / 2 ^ (8 * j) % 256

/-- Rotation of a 64-bit value left by 11 bits, phrased arithmetically as
in the specification ("rotates the 64-bit result left by 11 bits"). -/
def rotl11 (w : Nat) : Nat := w % 2 ^ 53 * 2 ^ 11 + w / 2 ^ 53

/-- Specification-side round function: split the argument into its high
and low 32-bit halves, substitute each of the 8 bytes through its
designated 256-entry table, reassemble, rotate left by 11. -/
def fSpec (x : Nat) : Nat :=
  let y := x / 2 ^ 32
  let z := x % 2 ^ 32
  let y1 := k87 (byteOf 3 y) * 2 ^ 24 + k65 (byteOf 2 y) * 2 ^ 16 +
            k43 (byteOf 1 y) * 2 ^ 8 + k21 (byteOf 0 y)
  let z1 := k175 (byteOf 3 z) * 2 ^ 24 + k153 (byteOf 2 z) * 2 ^ 16 +
            k131 (byteOf 1 z) * 2 ^ 8 + k109 (byteOf 0 z)
  rotl11 (y1 * 2 ^ 32 + z1)

lemma sbox_layer_eq (t1 t2 t3 t4 : Nat → Nat)
    (h2 : ∀ i, t2 i < 256) (h3 : ∀ i, t3 i < 256) (h4 : ∀ i, t4 i < 256) (v : Nat) :
    ((t1 ((v >>> 24) &&& 255)) <<< 24) ||| (((t2 ((v >>> 16) &&& 255)) <<< 16) |||
      (((t3 ((v >>> 8) &&& 255)) <<< 8) ||| (t4 (v &&& 255))))
    = t1 (byteOf 3 v) * 2 ^ 24 + t2 (byteOf 2 v) * 2 ^ 16 +
      t3 (byteOf 1 v) * 2 ^ 8 + t4 (byteOf 0 v) := by
  have hb3 : byteOf 3 v = v / 2 ^ 24 % 256 := rfl
  have hb2 : byteOf 2 v = v / 2 ^ 16 % 256 := rfl
  have hb1 : byteOf 1 v = v / 2 ^ 8 % 256 := rfl
  have hb0 : byteOf 0 v = v % 256 := by
    show v / 2 ^ (8 * 0) % 256 = v % 256
    norm_num
  simp only [Nat.shiftLeft_eq, Nat.shiftRight_eq_div_pow, and255_eq_mod, hb3, hb2, hb1, hb0]
  rw [or_mul_eq_add _ (show t4 (v % 256) < 2 ^ 8 by have := h4 (v % 256); omega)]
  rw [or_mul_eq_add _ (show t3 (v / 2 ^ 8 % 256) * 2 ^ 8 + t4 (v % 256) < 2 ^ 16 by
    have := h3 (v / 2 ^ 8 % 256); have := h4 (v % 256); omega)]
  rw [or_mul_eq_add _ (show t2 (v / 2 ^ 16 % 256) * 2 ^ 16 +
      (t3 (v / 2 ^ 8 % 256) * 2 ^ 8 + t4 (v % 256)) < 2 ^ 24 by
    have := h2 (v / 2 ^ 16 % 256); have := h3 (v / 2 ^ 8 % 256)
    have := h4 (v % 256); omega)]
  ring

lemma sbox_layer_lt (t1 t2 t3 t4 : Nat → Nat)
    (h1 : ∀ i, t1 i < 256) (h2 : ∀ i, t2 i < 256) (h3 : ∀ i, t3 i < 256)
    (h4 : ∀ i, t4 i < 256) (a b c d : Nat) :
    t1 a * 2 ^ 24 + t2 b * 2 ^ 16 + t3 c * 2 ^ 8 + t4 d < 2 ^ 32 := by
  have := h1 a; have := h2 b; have := h3 c; have := h4 d; omega

/-- Code-side `f` agrees everywhere with the specification-side `fSpec`. -/
lemma fSpec_eq_f (x : Nat) : fSpec x = f x := by
  rw [f, fSpec]
  rw [sbox_layer_eq k87 k65 k43 k21 k65_lt k43_lt k21_lt (x >>> 32)]
  rw [sbox_layer_eq k175 k153 k131 k109 k153_lt k131_lt k109_lt (x &&& 0xffffffff)]
  rw [Nat.shiftRight_eq_div_pow x 32, and32_eq_mod x]
  set Y := k87 (byteOf 3 (x / 2 ^ 32)) * 2 ^ 24 + k65 (byteOf 2 (x / 2 ^ 32)) * 2 ^ 16 +
      k43 (byteOf 1 (x / 2 ^ 32)) * 2 ^ 8 + k21 (byteOf 0 (x / 2 ^ 32)) with hY
  set Z := k175 (byteOf 3 (x % 2 ^ 32)) * 2 ^ 24 + k153 (byteOf 2 (x % 2 ^ 32)) * 2 ^ 16 +
      k131 (byteOf 1 (x % 2 ^ 32)) * 2 ^ 8 + k109 (byteOf 0 (x % 2 ^ 32)) with hZ
  have hYlt : Y < 2 ^ 32 := by
    rw [hY]; exact sbox_layer_lt _ _ _ _ k87_lt k65_lt k43_lt k21_lt _ _ _ _
  have hZlt : Z < 2 ^ 32 := by
    rw [hZ]; exact sbox_layer_lt _ _ _ _ k175_lt k153_lt k131_lt k109_lt _ _ _ _
  have hZand : Z &&& 0xffffffff = Z := by
    rw [and32_eq_mod, Nat.mod_eq_of_lt hZlt]
  rw [hZand, Nat.shiftLeft_eq Y 32, or_mul_eq_add Y hZlt]
  set W := Y * 2 ^ 32 + Z with hW
  have hWlt : W < 2 ^ 64 := by rw [hW]; omega
  rw [Nat.shiftLeft_eq W 11, Nat.shiftRight_eq_div_pow W 53]
  have h64 : (2 : Nat) ^ 64 = 2 ^ 53 * 2 ^ 11 := by norm_num
  rw [h64, Nat.mul_mod_mul_right, rotl11]
  have hdiv : W / 2 ^ 53 < 2 ^ 11 := by omega
  rw [or_mul_eq_add _ hdiv]

/-- Specification-side block encryption: 32 rounds over the round index
list, each round `b ^= f(a + k[2i]); a ^= f(b + k[2i+1])` with wrap-around
addition, output halves swapped. -/
def gostcryptSpec (key : Nat → Nat) (x : Nat × Nat) : Nat × Nat :=
  let ab := (List.range 32).foldl (fun ab i =>
    let b := ab.2 ^^^ fSpec ((ab.1 + key (2 * i)) % 2 ^ 64)
    let a := ab.1 ^^^ fSpec ((b + key (2 * i + 1)) % 2 ^ 64)
    (a, b)) x
  (ab.2, ab.1)

lemma foldl_range_gostRounds (key : Nat → Nat) (n : Nat) (x : Nat × Nat) :
    (List.range n).foldl (fun ab i => gostRound key i ab) x = gostRounds key n x := by
  induction n with
  | zero => rfl
  | succ n ih =>
    rw [List.range_succ, List.foldl_append, ih]
    rfl

lemma gostcryptSpec_eq (key : Nat → Nat) (x : Nat × Nat) :
    gostcryptSpec key x = gostcrypt key x := by
  have hf : fSpec = f := funext fSpec_eq_f
  rw [gostcryptSpec, hf]
  show ((List.range 32).foldl (fun ab i => gostRound key i ab) x).swap = gostcrypt key x
  rw [foldl_range_gostRounds]
  rfl

/-- C2: `encrypt_block` performs exactly 32 rounds of
`b ^= f(a + k[2i]); a ^= f(b + k[2i+1])` with addition modulo `2 ^ 64` and
outputs the swapped halves, and `f` substitutes the 8 bytes of the two
32-bit halves through the designated fixed byte tables, reassembles, and
rotates left by 11 bits: the specification-side transcription of that
sentence agrees with the code-side functions on all inputs. -/
theorem C2_encrypt_block_round_structure :
    (∀ key x, gostcryptSpec key x = gostcrypt key x) ∧ (∀ x, fSpec x = f x) :=
  ⟨gostcryptSpec_eq, fSpec_eq_f⟩

/-- C3: for every block and every 64-entry subkey schedule, decryption
with reversed subkey order exactly inverts encryption. -/
theorem C3_gostdecrypt_inverts_gostcrypt (key : Nat → Nat) (x : Nat × Nat) :
    gostdecrypt key (gostcrypt key x) = x :=
  gostdecrypt_gostcrypt key x

/-- Conversion of 16 bytes to two big-endian 64-bit words, as in
`be_bytes_to_words`: `a` accumulates bytes 0..7, `b` accumulates 8..15. -/
def be_bytes_to_words (l : List Nat) : Nat × Nat :=
  ((l.take 8).foldl (fun a b => (a <<< 8) ||| b) 0,
   ((l.drop 8).take 8).foldl (fun a b => (a <<< 8) ||| b) 0)

/-- Conversion of two 64-bit words to 16 big-endian bytes, as in
`be_words_to_bytes`. -/
def be_words_to_bytes (w : Nat × Nat) : List Nat :=
  [(w.1 >>> 56) &&& 255, (w.1 >>> 48) &&& 255, (w.1 >>> 40) &&& 255, (w.1 >>> 32) &&& 255,
   (w.1 >>> 24) &&& 255, (w.1 >>> 16) &&& 255, (w.1 >>> 8) &&& 255, w.1 &&& 255,
   (w.2 >>> 56) &&& 255, (w.2 >>> 48) &&& 255, (w.2 >>> 40) &&& 255, (w.2 >>> 32) &&& 255,
   (w.2 >>> 24) &&& 255, (w.2 >>> 16) &&& 255, (w.2 >>> 8) &&& 255, w.2 &&& 255]

lemma mod256_lt (u : Nat) : u % 256 < 2 ^ 8 := by
  have h : (2 : Nat) ^ 8 = 256 := by norm_num
  rw [h]
  exact Nat.mod_lt _ (by norm_num)

lemma or256_eq_add (a u : Nat) : (a * 2 ^ 8) ||| (u % 256) = a * 2 ^ 8 + u % 256 :=
  or_mul_eq_add a (mod256_lt u)

lemma and255_lt (v : Nat) : v &&& 255 < 256 := by
  rw [and255_eq_mod]
  exact Nat.mod_lt _ (by norm_num)

lemma fold8 (w : Nat) (h : w < 2 ^ 64) :
    [(w >>> 56) &&& 255, (w >>> 48) &&& 255, (w >>> 40) &&& 255, (w >>> 32) &&& 255,
     (w >>> 24) &&& 255, (w >>> 16) &&& 255, (w >>> 8) &&& 255, w &&& 255].foldl
      (fun a b => (a <<< 8) ||| b) 0 = w := by
  simp only [List.foldl, Nat.shiftLeft_eq, Nat.shiftRight_eq_div_pow, and255_eq_mod,
    or256_eq_add]
  omega

lemma btw_wtb (w : Nat × Nat) (h1 : w.1 < 2 ^ 64) (h2 : w.2 < 2 ^ 64) :
    be_bytes_to_words (be_words_to_bytes w) = w := by
  have hred : be_bytes_to_words (be_words_to_bytes w) =
      ([(w.1 >>> 56) &&& 255, (w.1 >>> 48) &&& 255, (w.1 >>> 40) &&& 255, (w.1 >>> 32) &&& 255,
        (w.1 >>> 24) &&& 255, (w.1 >>> 16) &&& 255, (w.1 >>> 8) &&& 255, w.1 &&& 255].foldl
          (fun a b => (a <<< 8) ||| b) 0,
       [(w.2 >>> 56) &&& 255, (w.2 >>> 48) &&& 255, (w.2 >>> 40) &&& 255, (w.2 >>> 32) &&& 255,
        (w.2 >>> 24) &&& 255, (w.2 >>> 16) &&& 255, (w.2 >>> 8) &&& 255, w.2 &&& 255].foldl
          (fun a b => (a <<< 8) ||| b) 0) := rfl
  rw [hred, fold8 w.1 h1, fold8 w.2 h2]

lemma wtb_length (w : Nat × Nat) : (be_words_to_bytes w).length = 16 := rfl

lemma wtb_bytes_lt (w : Nat × Nat) : ∀ x ∈ be_words_to_bytes w, x < 256 := by
  intro x hx
  simp only [be_words_to_bytes, List.mem_cons, List.not_mem_nil, or_false] at hx
  rcases hx with rfl|rfl|rfl|rfl|rfl|rfl|rfl|rfl|rfl|rfl|rfl|rfl|rfl|rfl|rfl|rfl <;>
    exact and255_lt _

lemma wtb_btw (l : List Nat) (hlen : l.length = 16) (h : ∀ x ∈ l, x < 256) :
    be_words_to_bytes (be_bytes_to_words l) = l := by
  match l, hlen with
  | [b0,b1,b2,b3,b4,b5,b6,b7,b8,b9,b10,b11,b12,b13,b14,b15], _ =>
    simp only [List.mem_cons, List.not_mem_nil, or_false, forall_eq_or_imp, forall_eq] at h
    obtain ⟨h0,h1,h2,h3,h4,h5,h6,h7,h8,h9,h10,h11,h12,h13,h14,h15⟩ := h
    have hA : be_bytes_to_words [b0,b1,b2,b3,b4,b5,b6,b7,b8,b9,b10,b11,b12,b13,b14,b15]
        = (b0 * 2 ^ 56 + b1 * 2 ^ 48 + b2 * 2 ^ 40 + b3 * 2 ^ 32 +
           b4 * 2 ^ 24 + b5 * 2 ^ 16 + b6 * 2 ^ 8 + b7,
           b8 * 2 ^ 56 + b9 * 2 ^ 48 + b10 * 2 ^ 40 + b11 * 2 ^ 32 +
           b12 * 2 ^ 24 + b13 * 2 ^ 16 + b14 * 2 ^ 8 + b15) := by
      show ([b0,b1,b2,b3,b4,b5,b6,b7].foldl (fun a b => (a <<< 8) ||| b) 0,
            [b8,b9,b10,b11,b12,b13,b14,b15].foldl (fun a b => (a <<< 8) ||| b) 0) = _
      simp only [List.foldl, Nat.shiftLeft_eq]
      rw [or_mul_eq_add _ (show b0 < 2 ^ 8 by omega),
          or_mul_eq_add _ (show b1 < 2 ^ 8 by omega),
          or_mul_eq_add _ (show b2 < 2 ^ 8 by omega),
          or_mul_eq_add _ (show b3 < 2 ^ 8 by omega),
          or_mul_eq_add _ (show b4 < 2 ^ 8 by omega),
          or_mul_eq_add _ (show b5 < 2 ^ 8 by omega),
          or_mul_eq_add _ (show b6 < 2 ^ 8 by omega),
          or_mul_eq_add _ (show b7 < 2 ^ 8 by omega),
          or_mul_eq_add _ (show b8 < 2 ^ 8 by omega),
          or_mul_eq_add _ (show b9 < 2 ^ 8 by omega),
          or_mul_eq_add _ (show b10 < 2 ^ 8 by omega),
          or_mul_eq_add _ (show b11 < 2 ^ 8 by omega),
          or_mul_eq_add _ (show b12 < 2 ^ 8 by omega),
          or_mul_eq_add _ (show b13 < 2 ^ 8 by omega),
          or_mul_eq_add _ (show b14 < 2 ^ 8 by omega),
          or_mul_eq_add _ (show b15 < 2 ^ 8 by omega)]
      simp only [Prod.mk.injEq]
      constructor <;> ring
    rw [hA, be_words_to_bytes]
    simp only [Nat.shiftRight_eq_div_pow, and255_eq_mod, List.cons.injEq, and_true]
    refine ⟨?_, ?_, ?_, ?_, ?_, ?_, ?_, ?_, ?_, ?_, ?_, ?_, ?_, ?_, ?_, ?_⟩ <;> omega

lemma foldl_bytes_lt : ∀ (l : List Nat) (a k : Nat), a < 2 ^ k → (∀ x ∈ l, x < 256) →
    l.foldl (fun a b => (a <<< 8) ||| b) a < 2 ^ (k + 8 * l.length) := by
  intro l
  induction l with
  | nil => intro a k ha _; simpa using ha
  | cons b l ih =>
    intro a k ha hb
    have hstep : (a <<< 8) ||| b < 2 ^ (k + 8) := by
      have h1 : a <<< 8 < 2 ^ (k + 8) := by
        rw [Nat.shiftLeft_eq, pow_add]
        exact Nat.mul_lt_mul_of_lt_of_le ha (by norm_num) (by positivity)
      have h2 : b < 2 ^ (k + 8) := by
        have hb' : b < 256 := hb b (by simp)
        have : (256 : Nat) ≤ 2 ^ (k + 8) := by
          calc (256 : Nat) = 2 ^ 8 := by norm_num
            _ ≤ 2 ^ (k + 8) := Nat.pow_le_pow_right (by norm_num) (by omega)
        omega
      exact Nat.or_lt_two_pow h1 h2
    have := ih ((a <<< 8) ||| b) (k + 8) hstep (fun x hx => hb x (by simp [hx]))
    simp only [List.foldl_cons, List.length_cons]
    have harith : k + 8 + 8 * l.length = k + 8 * (l.length + 1) := by ring
    rw [← harith]
    exact this

lemma btw_lt (l : List Nat) (h : ∀ x ∈ l, x < 256) :
    (be_bytes_to_words l).1 < 2 ^ 64 ∧ (be_bytes_to_words l).2 < 2 ^ 64 := by
  constructor
  · have := foldl_bytes_lt (l.take 8) 0 0 (by norm_num)
      (fun x hx => h x (List.mem_of_mem_take hx))
    refine lt_of_lt_of_le this (Nat.pow_le_pow_right (by norm_num) ?_)
    have : (l.take 8).length ≤ 8 := by simp
    omega
  · have := foldl_bytes_lt ((l.drop 8).take 8) 0 0 (by norm_num)
      (fun x hx => h x (List.mem_of_mem_drop (List.mem_of_mem_take hx)))
    refine lt_of_lt_of_le this (Nat.pow_le_pow_right (by norm_num) ?_)
    have : ((l.drop 8).take 8).length ≤ 8 := by simp
    omega

lemma rotl11_lt {w : Nat} (h : w < 2 ^ 64) : rotl11 w < 2 ^ 64 := by
  rw [rotl11]
  omega

lemma f_lt (x : Nat) : f x < 2 ^ 64 := by
  rw [← fSpec_eq_f]
  simp only [fSpec]
  apply rotl11_lt
  have h1 := sbox_layer_lt _ _ _ _ k87_lt k65_lt k43_lt k21_lt
    (byteOf 3 (x / 2 ^ 32)) (byteOf 2 (x / 2 ^ 32)) (byteOf 1 (x / 2 ^ 32)) (byteOf 0 (x / 2 ^ 32))
  have h2 := sbox_layer_lt _ _ _ _ k175_lt k153_lt k131_lt k109_lt
    (byteOf 3 (x % 2 ^ 32)) (byteOf 2 (x % 2 ^ 32)) (byteOf 1 (x % 2 ^ 32)) (byteOf 0 (x % 2 ^ 32))
  have h64 : (2 : Nat) ^ 64 = 2 ^ 32 * 2 ^ 32 := by norm_num
  omega

lemma gostRounds_lt (key : Nat → Nat) :
    ∀ n (ab : Nat × Nat), ab.1 < 2 ^ 64 → ab.2 < 2 ^ 64 →
      (gostRounds key n ab).1 < 2 ^ 64 ∧ (gostRounds key n ab).2 < 2 ^ 64 := by
  intro n
  induction n with
  | zero => intro ab h1 h2; exact ⟨h1, h2⟩
  | succ n ih =>
    intro ab h1 h2
    obtain ⟨ih1, ih2⟩ := ih ab h1 h2
    constructor
    · exact Nat.xor_lt_two_pow ih1 (f_lt _)
    · exact Nat.xor_lt_two_pow ih2 (f_lt _)

lemma gostcrypt_lt (key : Nat → Nat) (x : Nat × Nat) (h1 : x.1 < 2 ^ 64) (h2 : x.2 < 2 ^ 64) :
    (gostcrypt key x).1 < 2 ^ 64 ∧ (gostcrypt key x).2 < 2 ^ 64 := by
  obtain ⟨ha, hb⟩ := gostRounds_lt key 32 x h1 h2
  exact ⟨hb, ha⟩

/-- XOR of two byte blocks, as in the per-block loops
`inbuf[off+i] ^= prev[i]` and `outbuf[off+i] ^= prev[i]`. -/
def xorBlock (blk prev : List Nat) : List Nat :=
  List.zipWith (fun x y => x ^^^ y) blk prev

lemma xorBlock_length (blk prev : List Nat) :
    (xorBlock blk prev).length = min blk.length prev.length := by
  simp [xorBlock]

lemma xorBlock_bytes_lt : ∀ (a b : List Nat), (∀ x ∈ a, x < 256) → (∀ x ∈ b, x < 256) →
    ∀ x ∈ xorBlock a b, x < 256 := by
  intro a
  induction a with
  | nil => intro b _ _ x hx; simp [xorBlock] at hx
  | cons a0 a ih =>
    intro b ha hb x hx
    cases b with
    | nil => simp [xorBlock] at hx
    | cons b0 b =>
      simp only [xorBlock, List.zipWith_cons_cons, List.mem_cons] at hx
      rcases hx with rfl | hx
      · have h1 : a0 < 256 := ha a0 (by simp)
        have h2 : b0 < 256 := hb b0 (by simp)
        have : a0 ^^^ b0 < 2 ^ 8 := Nat.xor_lt_two_pow (by omega) (by omega)
        omega
      · exact ih b (fun y hy => ha y (by simp [hy])) (fun y hy => hb y (by simp [hy])) x hx

lemma xorBlock_cancel : ∀ (a p : List Nat), a.length = p.length →
    xorBlock (xorBlock a p) p = a := by
  intro a
  induction a with
  | nil => intro p h; cases p <;> simp [xorBlock] at h ⊢
  | cons a0 a ih =>
    intro p h
    cases p with
    | nil => simp at h
    | cons p0 p =>
      simp only [xorBlock, List.zipWith_cons_cons]
      rw [show (fun (x y : Nat) => x ^^^ y) a0 p0 ^^^ p0 = a0 from xor_cancel_right a0 p0]
      have := ih p (by simpa using h)
      simp only [xorBlock] at this
      rw [this]

/-- Encryption of one 16-byte block in CBC mode: XOR with `prev`, convert
to words, `gostcrypt`, convert back, as in the encrypt loops. -/
def encryptBlockBytes (key : Nat → Nat) (prev blk : List Nat) : List Nat :=
  be_words_to_bytes (gostcrypt key (be_bytes_to_words (xorBlock blk prev)))

/-- Decryption of one 16-byte block in CBC mode: convert to words,
`gostdecrypt`, convert back, XOR with `prev`, as in the decrypt loop. -/
def decryptBlockBytes (key : Nat → Nat) (prev cblk : List Nat) : List Nat :=
  xorBlock (be_words_to_bytes (gostdecrypt key (be_bytes_to_words cblk))) prev

/-- CBC encryption of consecutive whole 16-byte blocks of `data`,
returning the ciphertext bytes and the final chain value `prev`. Mirrors
the per-block loops of `cbc_encrypt_stream` (which process buffers whose
length is a multiple of 16). -/
def cbcEncBlocks (key : Nat → Nat) (prev data : List Nat) : List Nat × List Nat :=
  if h : 16 ≤ data.length then
    let c := encryptBlockBytes key prev (data.take 16)
    let rest := cbcEncBlocks key c (data.drop 16)
    (c ++ rest.1, rest.2)
  else ([], prev)
termination_by data.length
decreasing_by simp only [List.length_drop]; omega

/-- CBC decryption of consecutive whole 16-byte blocks of `data`,
returning the plaintext bytes and the final chain value `prev` (the last
ciphertext block, per `memcpy(prev, cpy, BLOCK_SIZE)`). -/
def cbcDecBlocks (key : Nat → Nat) (prev data : List Nat) : List Nat × List Nat :=
  if h : 16 ≤ data.length then
    let p := decryptBlockBytes key prev (data.take 16)
    let rest := cbcDecBlocks key (data.take 16) (data.drop 16)
    (p ++ rest.1, rest.2)
  else ([], prev)
termination_by data.length
decreasing_by simp only [List.length_drop]; omega

lemma decryptBlockBytes_encryptBlockBytes (key : Nat → Nat) (prev blk : List Nat)
    (hp : prev.length = 16) (hpb : ∀ x ∈ prev, x < 256)
    (hb : blk.length = 16) (hbb : ∀ x ∈ blk, x < 256) :
    decryptBlockBytes key prev (encryptBlockBytes key prev blk) = blk := by
  have hxlen : (xorBlock blk prev).length = 16 := by
    rw [xorBlock_length, hp, hb]
    omega
  have hxb : ∀ x ∈ xorBlock blk prev, x < 256 := xorBlock_bytes_lt blk prev hbb hpb
  obtain ⟨hw1, hw2⟩ := btw_lt _ hxb
  obtain ⟨hc1, hc2⟩ := gostcrypt_lt key _ hw1 hw2
  rw [decryptBlockBytes, encryptBlockBytes, btw_wtb _ hc1 hc2, gostdecrypt_gostcrypt,
    wtb_btw _ hxlen hxb]
  exact xorBlock_cancel blk prev (by omega)

lemma encryptBlockBytes_length (key : Nat → Nat) (prev blk : List Nat) :
    (encryptBlockBytes key prev blk).length = 16 :=
  wtb_length _

lemma encryptBlockBytes_bytes_lt (key : Nat → Nat) (prev blk : List Nat) :
    ∀ x ∈ encryptBlockBytes key prev blk, x < 256 :=
  wtb_bytes_lt _

lemma cbcEncBlocks_nil (key : Nat → Nat) (prev : List Nat) :
    cbcEncBlocks key prev [] = ([], prev) := by
  rw [cbcEncBlocks]
  simp

lemma cbcDecBlocks_nil (key : Nat → Nat) (prev : List Nat) :
    cbcDecBlocks key prev [] = ([], prev) := by
  rw [cbcDecBlocks]
  simp

lemma cbcEncBlocks_length (key : Nat → Nat) :
    ∀ (n : Nat) (data prev : List Nat), data.length ≤ n →
      (cbcEncBlocks key prev data).1.length = data.length / 16 * 16 := by
  intro n
  induction n with
  | zero =>
    intro data prev hle
    have : data = [] := List.eq_nil_of_length_eq_zero (by omega)
    subst this
    simp [cbcEncBlocks_nil]
  | succ n ih =>
    intro data prev hle
    by_cases h : 16 ≤ data.length
    · rw [cbcEncBlocks]
      simp only [h, dif_pos]
      have hlen := ih (data.drop 16) (encryptBlockBytes key prev (data.take 16))
        (by simp only [List.length_drop]; omega)
      simp only [List.length_append, encryptBlockBytes_length, hlen, List.length_drop]
      omega
    · rw [cbcEncBlocks]
      simp only [h, dif_neg, not_false_iff]
      simp only [List.length_nil]
      omega

lemma cbcEncBlocks_bytes_lt (key : Nat → Nat) :
    ∀ (n : Nat) (data prev : List Nat), data.length ≤ n →
      ∀ x ∈ (cbcEncBlocks key prev data).1, x < 256 := by
  intro n
  induction n with
  | zero =>
    intro data prev hle
    have : data = [] := List.eq_nil_of_length_eq_zero (by omega)
    subst this
    simp [cbcEncBlocks_nil]
  | succ n ih =>
    intro data prev hle x hx
    by_cases h : 16 ≤ data.length
    · rw [cbcEncBlocks] at hx
      simp only [h, dif_pos, List.mem_append] at hx
      rcases hx with hx | hx
      · exact encryptBlockBytes_bytes_lt key prev _ x hx
      · exact ih (data.drop 16) _ (by simp only [List.length_drop]; omega) x hx
    · rw [cbcEncBlocks] at hx
      simp only [h, dif_neg, not_false_iff, List.not_mem_nil] at hx

lemma cbcDecBlocks_cbcEncBlocks (key : Nat → Nat) :
    ∀ (n : Nat) (data prev : List Nat), data.length ≤ n →
      data.length % 16 = 0 → (∀ x ∈ data, x < 256) →
      prev.length = 16 → (∀ x ∈ prev, x < 256) →
      cbcDecBlocks key prev (cbcEncBlocks key prev data).1
        = (data, (cbcEncBlocks key prev data).2) := by
  intro n
  induction n with
  | zero =>
    intro data prev hle _ _ _ _
    have : data = [] := List.eq_nil_of_length_eq_zero (by omega)
    subst this
    simp [cbcEncBlocks_nil, cbcDecBlocks_nil]
  | succ n ih =>
    intro data prev hle hmod hdb hp hpb
    by_cases h : 16 ≤ data.length
    · rw [cbcEncBlocks]
      simp only [h, dif_pos]
      set c := encryptBlockBytes key prev (data.take 16) with hc
      have hclen : c.length = 16 := encryptBlockBytes_length key prev _
      have hcb : ∀ x ∈ c, x < 256 := encryptBlockBytes_bytes_lt key prev _
      set rest := cbcEncBlocks key c (data.drop 16) with hrest
      have hrlen : (c ++ rest.1).length ≥ 16 := by
        simp only [List.length_append, hclen]
        omega
      rw [cbcDecBlocks]
      simp only [hrlen, dif_pos]
      rw [List.take_left' hclen, List.drop_left' hclen]
      have hblk : decryptBlockBytes key prev c = data.take 16 := by
        rw [hc]
        exact decryptBlockBytes_encryptBlockBytes key prev (data.take 16) hp hpb
          (by simp only [List.length_take]; omega)
          (fun x hx => hdb x (List.mem_of_mem_take hx))
      have hrec := ih (data.drop 16) c (by simp only [List.length_drop]; omega)
        (by simp only [List.length_drop]; omega)
        (fun x hx => hdb x (List.mem_of_mem_drop hx)) hclen hcb
      rw [hblk, hrest, hrec, List.take_append_drop]
    · have hz : data.length = 0 := by omega
      have : data = [] := List.eq_nil_of_length_eq_zero hz
      subst this
      simp [cbcEncBlocks_nil, cbcDecBlocks_nil]

lemma cbcEncBlocks_append (key : Nat → Nat) :
    ∀ (n : Nat) (d1 d2 prev : List Nat), d1.length ≤ n → d1.length % 16 = 0 →
      cbcEncBlocks key prev (d1 ++ d2)
        = ((cbcEncBlocks key prev d1).1 ++ (cbcEncBlocks key (cbcEncBlocks key prev d1).2 d2).1,
           (cbcEncBlocks key (cbcEncBlocks key prev d1).2 d2).2) := by
  intro n
  induction n with
  | zero =>
    intro d1 d2 prev hle _
    have : d1 = [] := List.eq_nil_of_length_eq_zero (by omega)
    subst this
    simp [cbcEncBlocks_nil]
  | succ n ih =>
    intro d1 d2 prev hle hmod
    by_cases h : 16 ≤ d1.length
    · have hlen12 : 16 ≤ (d1 ++ d2).length := by
        simp only [List.length_append]
        omega
      rw [cbcEncBlocks]
      simp only [hlen12, dif_pos]
      rw [List.take_append_of_le_length (by omega), List.drop_append_of_le_length (by omega)]
      conv_rhs => rw [cbcEncBlocks]
      simp only [h, dif_pos]
      rw [ih (d1.drop 16) d2 _ (by simp only [List.length_drop]; omega)
        (by simp only [List.length_drop]; omega)]
      simp only [List.append_assoc]
    · have hz : d1.length = 0 := by omega
      have : d1 = [] := List.eq_nil_of_length_eq_zero hz
      subst this
      simp [cbcEncBlocks_nil]

lemma cbcDecBlocks_append (key : Nat → Nat) :
    ∀ (n : Nat) (d1 d2 prev : List Nat), d1.length ≤ n → d1.length % 16 = 0 →
      cbcDecBlocks key prev (d1 ++ d2)
        = ((cbcDecBlocks key prev d1).1 ++ (cbcDecBlocks key (cbcDecBlocks key prev d1).2 d2).1,
           (cbcDecBlocks key (cbcDecBlocks key prev d1).2 d2).2) := by
  intro n
  induction n with
  | zero =>
    intro d1 d2 prev hle _
    have : d1 = [] := List.eq_nil_of_length_eq_zero (by omega)
    subst this
    simp [cbcDecBlocks_nil]
  | succ n ih =>
    intro d1 d2 prev hle hmod
    by_cases h : 16 ≤ d1.length
    · have hlen12 : 16 ≤ (d1 ++ d2).length := by
        simp only [List.length_append]
        omega
      rw [cbcDecBlocks]
      simp only [hlen12, dif_pos]
      rw [List.take_append_of_le_length (by omega), List.drop_append_of_le_length (by omega)]
      conv_rhs => rw [cbcDecBlocks]
      simp only [h, dif_pos]
      rw [ih (d1.drop 16) d2 _ (by simp only [List.length_drop]; omega)
        (by simp only [List.length_drop]; omega)]
      simp only [List.append_assoc]
    · have hz : d1.length = 0 := by omega
      have : d1 = [] := List.eq_nil_of_length_eq_zero hz
      subst this
      simp [cbcDecBlocks_nil]

/-- PKCS#7 padding as in `pkcs7_pad`: append `16 - used % 16` bytes, each
equal to that amount. The C function additionally fails when
`used + pad > cap`; inside `cbc_encrypt_stream` the capacity is
`READ_CHUNK + BLOCK_SIZE` while `used < READ_CHUNK`, so that branch never
triggers (`pkcs7_pad_fits`). -/
def pkcs7_pad (l : List Nat) : List Nat :=
  l ++ List.replicate (16 - l.length % 16) (16 - l.length % 16)

lemma pkcs7_pad_fits (used : Nat) (h : used < 65536) :
    used + (16 - used % 16) ≤ 65536 + 16 := by
  omega

lemma pkcs7_pad_length (l : List Nat) :
    (pkcs7_pad l).length = l.length + (16 - l.length % 16) := by
  simp [pkcs7_pad]

lemma pkcs7_pad_length_mod (l : List Nat) : (pkcs7_pad l).length % 16 = 0 := by
  rw [pkcs7_pad_length]
  omega

lemma pkcs7_pad_bytes_lt (l : List Nat) (h : ∀ x ∈ l, x < 256) :
    ∀ x ∈ pkcs7_pad l, x < 256 := by
  intro x hx
  rw [pkcs7_pad, List.mem_append] at hx
  rcases hx with hx | hx
  · exact h x hx
  · have := List.eq_of_mem_replicate hx
    omega


/-- Reading of one byte from a buffer at an index, with 0 out of range
(the C code only ever reads in range). -/
def byteAt (l : List Nat) (i : Nat) : Nat := l.getD i 0

lemma byteAt_append_right {l : List Nat} (l' : List Nat) {n : Nat} (h : l.length ≤ n) :
    byteAt (l ++ l') n = byteAt l' (n - l.length) :=
  List.getD_append_right l l' 0 n h

lemma byteAt_replicate {n v i : Nat} (h : i < n) : byteAt (List.replicate n v) i = v := by
  rw [byteAt, List.getD_eq_getElem (List.replicate n v) 0 (by simpa using h)]
  exact List.getElem_replicate _ _

/-- PKCS#7 unpadding as in `pkcs7_unpad`: reject a length that is zero or
not a multiple of 16, read the final byte as the pad value, require it in
`[1,16]` and that the last `pad` bytes all equal it, then truncate. -/
def pkcs7_unpad (l : List Nat) : Option (List Nat) :=
  if l.length = 0 ∨ l.length % 16 ≠ 0 then none
  else if byteAt l (l.length - 1) = 0 ∨ 16 < byteAt l (l.length - 1) then none
  else if (List.range (byteAt l (l.length - 1))).all
      (fun i => byteAt l (l.length - 1 - i) == byteAt l (l.length - 1)) then
    some (l.take (l.length - byteAt l (l.length - 1)))
  else none

lemma pkcs7_unpad_pkcs7 (r : List Nat) (v : Nat) (hv1 : 1 ≤ v) (hv16 : v ≤ 16)
    (hr : r.length + v = 16) :
    pkcs7_unpad (r ++ List.replicate v v) = some r := by
  have hlen : (r ++ List.replicate v v).length = 16 := by
    simp only [List.length_append, List.length_replicate]
    omega
  have hpadval : byteAt (r ++ List.replicate v v) ((r ++ List.replicate v v).length - 1) = v := by
    rw [hlen, byteAt_append_right _ (by omega), byteAt_replicate (by omega)]
  rw [pkcs7_unpad, if_neg (by omega), hpadval, if_neg (by omega), if_pos, hlen,
    List.take_append_of_le_length (by omega), List.take_of_length_le (by omega)]
  rw [List.all_eq_true]
  intro i hi
  rw [List.mem_range] at hi
  rw [hlen, byteAt_append_right _ (by omega), byteAt_replicate (by omega)]
  exact beq_self_eq_true v

/-- Validity of the PKCS#7 padding of a 16-byte block, phrased as the
specification describes it: the final byte `v` is in `[1,16]` and the last
`v` bytes all equal `v`. -/
def validPad (l : List Nat) : Prop :=
  1 ≤ byteAt l 15 ∧ byteAt l 15 ≤ 16 ∧ ∀ i < byteAt l 15, byteAt l (15 - i) = byteAt l 15

instance validPad_decidable (l : List Nat) : Decidable (validPad l) := by
  unfold validPad
  infer_instance

lemma pkcs7_unpad_sixteen (l : List Nat) (hlen : l.length = 16) :
    pkcs7_unpad l = if validPad l then some (l.take (16 - byteAt l 15)) else none := by
  rw [pkcs7_unpad, if_neg (by omega), hlen]
  show (if byteAt l 15 = 0 ∨ 16 < byteAt l 15 then none
    else if (List.range (byteAt l 15)).all (fun i => byteAt l (15 - i) == byteAt l 15) then
      some (l.take (16 - byteAt l 15))
    else none) = _
  by_cases hv : byteAt l 15 = 0 ∨ 16 < byteAt l 15
  · rw [if_pos hv, if_neg]
    rw [validPad]
    omega
  · rw [if_neg hv]
    by_cases hall : ((List.range (byteAt l 15)).all
        (fun i => byteAt l (15 - i) == byteAt l 15) : Bool)
    · rw [if_pos hall, if_pos]
      rw [List.all_eq_true] at hall
      refine ⟨by omega, by omega, fun i hi => ?_⟩
      have := hall i (List.mem_range.mpr hi)
      exact eq_of_beq this
    · rw [if_neg hall, if_neg]
      intro hvp
      apply hall
      rw [List.all_eq_true]
      intro i hi
      rw [List.mem_range] at hi
      exact beq_of_eq (hvp.2.2 i hi)

/-- SHA-256 round constants `k256`. -/
def k256 : List Nat :=
  [1116352408, 1899447441, 3049323471, 3921009573, 961987163, 1508970993,
   2453635748, 2870763221, 3624381080, 310598401, 607225278, 1426881987,
   1925078388, 2162078206, 2614888103, 3248222580, 3835390401, 4022224774,
   264347078, 604807628, 770255983, 1249150122, 1555081692, 1996064986,
   2554220882, 2821834349, 2952996808, 3210313671, 3336571891, 3584528711,
   113926993, 338241895, 666307205, 773529912, 1294757372, 1396182291,
   1695183700, 1986661051, 2177026350, 2456956037, 2730485921, 2820302411,
   3259730800, 3345764771, 3516065817, 3600352804, 4094571909, 275423344,
   430227734, 506948616, 659060556, 883997877, 958139571, 1322822218,
   1537002063, 1747873779, 1955562222, 2024104815, 2227730452, 2361852424,
   2428436474, 2756734187, 3204031479, 3329325298]

/-- Right rotation on 32-bit words, macro `ROTRIGHT` (the left shift wraps
in 32-bit unsigned arithmetic). -/
def rotr32 (a b : Nat) : Nat := (a >>> b) ||| ((a <<< (32 - b)) % 2 ^ 32)

/-- Macro `CH`; the C complement `~x` on a 32-bit word is `x ^ 0xffffffff`. -/
def shaCh (x y z : Nat) : Nat := (x &&& y) ^^^ ((x ^^^ 0xffffffff) &&& z)

/-- Macro `MAJ`. -/
def shaMaj (x y z : Nat) : Nat := (x &&& y) ^^^ (x &&& z) ^^^ (y &&& z)

/-- Macro `EP0`. -/
def shaEp0 (x : Nat) : Nat := rotr32 x 2 ^^^ rotr32 x 13 ^^^ rotr32 x 22

/-- Macro `EP1`. -/
def shaEp1 (x : Nat) : Nat := rotr32 x 6 ^^^ rotr32 x 11 ^^^ rotr32 x 25

/-- Macro `SIG0`. -/
def shaSig0 (x : Nat) : Nat := rotr32 x 7 ^^^ rotr32 x 18 ^^^ (x >>> 3)

/-- Macro `SIG1`. -/
def shaSig1 (x : Nat) : Nat := rotr32 x 17 ^^^ rotr32 x 19 ^^^ (x >>> 10)

/-- Message schedule `m[i]` of `sha256_transform` over a 64-byte block:
the first 16 words load the block big-endian, the rest are the usual
recurrence with 32-bit wrap-around addition. -/
def shaSchedule (blk : List Nat) : Nat → Nat
  | i =>
    if h : i < 16 then
      ((byteAt blk (4 * i)) <<< 24) ||| ((byteAt blk (4 * i + 1)) <<< 16) |||
        ((byteAt blk (4 * i + 2)) <<< 8) ||| byteAt blk (4 * i + 3)
    else
      (shaSig1 (shaSchedule blk (i - 2)) + shaSchedule blk (i - 7) +
        shaSig0 (shaSchedule blk (i - 15)) + shaSchedule blk (i - 16)) % 2 ^ 32
termination_by i => i
decreasing_by all_goals omega

/-- Working registers of `sha256_transform`. -/
structure ShaRegs where
  ra : Nat
  rb : Nat
  rc : Nat
  rd : Nat
  re : Nat
  rf : Nat
  rg : Nat
  rh : Nat

/-- One iteration of the 64-round compression loop of `sha256_transform`,
with 32-bit wrap-around additions. -/
def shaRound (m : Nat → Nat) (st : ShaRegs) (i : Nat) : ShaRegs :=
  let t1 := (st.rh + shaEp1 st.re + shaCh st.re st.rf st.rg + byteAt k256 i + m i) % 2 ^ 32
  let t2 := (shaEp0 st.ra + shaMaj st.ra st.rb st.rc) % 2 ^ 32
  { ra := (t1 + t2) % 2 ^ 32, rb := st.ra, rc := st.rb, rd := st.rc,
    re := (st.rd + t1) % 2 ^ 32, rf := st.re, rg := st.rf, rh := st.rg }

/-- Whole `sha256_transform` on one 64-byte block, including the final
feed-forward additions into the context state. -/
def sha256_transform (st : ShaRegs) (blk : List Nat) : ShaRegs :=
  let r := (List.range 64).foldl (shaRound (shaSchedule blk)) st
  { ra := (st.ra + r.ra) % 2 ^ 32, rb := (st.rb + r.rb) % 2 ^ 32,
    rc := (st.rc + r.rc) % 2 ^ 32, rd := (st.rd + r.rd) % 2 ^ 32,
    re := (st.re + r.re) % 2 ^ 32, rf := (st.rf + r.rf) % 2 ^ 32,
    rg := (st.rg + r.rg) % 2 ^ 32, rh := (st.rh + r.rh) % 2 ^ 32 }

/-- Initial state of `sha256_init`. -/
def sha256_initRegs : ShaRegs :=
  { ra := 1779033703, rb := 3144134277, rc := 1013904242, rd := 2773480762,
    re := 1359893119, rf := 2600822924, rg := 528734635, rh := 1541459225 }

/-- Padding appended by `sha256_final`: a `0x80` byte, zeros until the
length is 56 mod 64, then the bit length as 8 big-endian bytes. -/
def sha256_padBytes (len : Nat) : List Nat :=
  0x80 :: List.replicate ((64 + 56 - (len + 1) % 64) % 64) 0 ++
    [(8 * len) >>> 56 &&& 255, (8 * len) >>> 48 &&& 255, (8 * len) >>> 40 &&& 255,
     (8 * len) >>> 32 &&& 255, (8 * len) >>> 24 &&& 255, (8 * len) >>> 16 &&& 255,
     (8 * len) >>> 8 &&& 255, (8 * len) &&& 255]

/-- Folding of `sha256_transform` over consecutive 64-byte blocks, as done
incrementally by `sha256_update`. -/
def sha256_chunks (st : ShaRegs) (l : List Nat) : ShaRegs :=
  if h : 64 ≤ l.length then sha256_chunks (sha256_transform st (l.take 64)) (l.drop 64)
  else st
termination_by l.length
decreasing_by simp only [List.length_drop]; omega

/-- SHA-256 digest of a byte sequence: the behaviour of
`sha256_init` / `sha256_update` / `sha256_final` over the whole stream
(`sha256_update` is a per-byte fold, so feeding chunks one at a time is
the same as feeding their concatenation). -/
def sha256Bytes (msg : List Nat) : List Nat :=
  let r := sha256_chunks sha256_initRegs (msg ++ sha256_padBytes msg.length)
  [r.ra >>> 24 &&& 255, r.ra >>> 16 &&& 255, r.ra >>> 8 &&& 255, r.ra &&& 255,
   r.rb >>> 24 &&& 255, r.rb >>> 16 &&& 255, r.rb >>> 8 &&& 255, r.rb &&& 255,
   r.rc >>> 24 &&& 255, r.rc >>> 16 &&& 255, r.rc >>> 8 &&& 255, r.rc &&& 255,
   r.rd >>> 24 &&& 255, r.rd >>> 16 &&& 255, r.rd >>> 8 &&& 255, r.rd &&& 255,
   r.re >>> 24 &&& 255, r.re >>> 16 &&& 255, r.re >>> 8 &&& 255, r.re &&& 255,
   r.rf >>> 24 &&& 255, r.rf >>> 16 &&& 255, r.rf >>> 8 &&& 255, r.rf &&& 255,
   r.rg >>> 24 &&& 255, r.rg >>> 16 &&& 255, r.rg >>> 8 &&& 255, r.rg &&& 255,
   r.rh >>> 24 &&& 255, r.rh >>> 16 &&& 255, r.rh >>> 8 &&& 255, r.rh &&& 255]

lemma sha256Bytes_length (msg : List Nat) : (sha256Bytes msg).length = 32 := rfl

/-- Size `READ_CHUNK` of one `fread` request in the streaming loops. -/
def READ_CHUNK : Nat := 65536

/-- Remainder `rem = r - (r / 16) * 16` computed by the encrypt loop in
every iteration that read a full chunk (`r = READ_CHUNK`); this is the
carry left between chunk reads. `READ_CHUNK` is a multiple of 16, so it
is 0 and the remainder-refill branch of the C loop (lines 473-496) is
unreachable. -/
def encCarryRem : Nat := READ_CHUNK - READ_CHUNK / 16 * 16

/-- The final remainder of the input: what is left in `inbuf` when `fread`
returns less than `READ_CHUNK` and the encrypt loop falls through to the
padding step (`tail` in the C code). -/
def encTail (input : List Nat) : List Nat :=
  if h : READ_CHUNK ≤ input.length then encTail (input.drop READ_CHUNK) else input
termination_by input.length
decreasing_by simp only [List.length_drop, READ_CHUNK] at *; omega

/-- Ciphertext body produced by the loop of `cbc_encrypt_stream`: full
`READ_CHUNK` chunks are encrypted block-by-block (each such chunk splits
into whole 16-byte blocks, remainder 0), and the final short read is
PKCS#7-padded and encrypted. -/
def encBody (key : Nat → Nat) (prev input : List Nat) : List Nat :=
  if h : READ_CHUNK ≤ input.length then
    (cbcEncBlocks key prev (input.take READ_CHUNK)).1 ++
      encBody key (cbcEncBlocks key prev (input.take READ_CHUNK)).2 (input.drop READ_CHUNK)
  else
    (cbcEncBlocks key prev (pkcs7_pad input)).1
termination_by input.length
decreasing_by simp only [List.length_drop, READ_CHUNK] at *; omega

/-- Output of `cbc_encrypt_stream`: the IV in clear, the ciphertext, then
the SHA-256 digest of the ciphertext alone (`sha256_update` is a per-byte
fold, so the incremental hashing of the C code equals hashing the
concatenated ciphertext). -/
def cbc_encrypt_stream (key : Nat → Nat) (iv input : List Nat) : List Nat :=
  iv ++ encBody key iv input ++ sha256Bytes (encBody key iv input)

/-- Failure modes of `cbc_decrypt_stream`: input shorter than 48 bytes,
ciphertext region empty or misaligned, a final chunk shorter than one
block, invalid PKCS#7 padding. -/
inductive DecError where
  | tooSmall : DecError
  | badLength : DecError
  | shortChunk : DecError
  | badPad : DecError
deriving DecidableEq

/-- Size of one decrypt-loop read: `toread = min(remaining, READ_CHUNK)`
aligned down to a multiple of the block size. -/
def decLoopChunk (len : Nat) : Nat :=
  min len READ_CHUNK - min len READ_CHUNK % 16

/-- The decrypt streaming loop of `cbc_decrypt_stream`, returning the
bytes written to the sink and an optional error. Every chunk except the
final one is emitted in full; in the final chunk the bytes before the
last block are emitted, then the withheld last block is unpadded — on
padding failure the earlier bytes remain emitted. The `shortChunk` error
mirrors the defensive `r < BLOCK_SIZE` branch; it also covers a zero-size
aligned read, on which the C loop would never terminate (that case is cut
off by the caller's format checks). -/
def decLoop (key : Nat → Nat) (prev ct : List Nat) : List Nat × Option DecError :=
  if h0 : decLoopChunk ct.length = 0 then ([], some DecError.shortChunk)
  else if hlt : decLoopChunk ct.length < ct.length then
    ((cbcDecBlocks key prev (ct.take (decLoopChunk ct.length))).1 ++
      (decLoop key (cbcDecBlocks key prev (ct.take (decLoopChunk ct.length))).2
        (ct.drop (decLoopChunk ct.length))).1,
     (decLoop key (cbcDecBlocks key prev (ct.take (decLoopChunk ct.length))).2
        (ct.drop (decLoopChunk ct.length))).2)
  else if decLoopChunk ct.length < 16 then ([], some DecError.shortChunk)
  else
    match pkcs7_unpad ((cbcDecBlocks key prev (ct.take (decLoopChunk ct.length))).1.drop
        (decLoopChunk ct.length - 16)) with
    | none => ((cbcDecBlocks key prev (ct.take (decLoopChunk ct.length))).1.take
        (decLoopChunk ct.length - 16), some DecError.badPad)
    | some rem => ((cbcDecBlocks key prev (ct.take (decLoopChunk ct.length))).1.take
        (decLoopChunk ct.length - 16) ++ rem, none)
termination_by ct.length
decreasing_by simp only [List.length_drop, decLoopChunk, READ_CHUNK] at *; omega

/-- Result of one decrypt invocation: the bytes written to the output
sink, the error (if any), and the authentication flag. -/
structure DecResult where
  emitted : List Nat
  err : Option DecError
  authOk : Bool
deriving DecidableEq

/-- Whole `cbc_decrypt_stream`: format checks (length at least 48,
ciphertext region a positive multiple of 16), then the streaming loop,
then comparison of the recomputed digest with the stored trailer. An
authentication mismatch is reported only through `authOk`. -/
def cbc_decrypt_stream (key : Nat → Nat) (file : List Nat) : DecResult :=
  if file.length < 48 then { emitted := [], err := some DecError.tooSmall, authOk := false }
  else if file.length - 32 - 16 = 0 ∨ (file.length - 32 - 16) % 16 ≠ 0 then
    { emitted := [], err := some DecError.badLength, authOk := false }
  else
    match decLoop key (file.take 16) ((file.drop 16).take (file.length - 32 - 16)) with
    | (out, some e) => { emitted := out, err := some e, authOk := false }
    | (out, none) =>
      { emitted := out, err := none,
        authOk := sha256Bytes ((file.drop 16).take (file.length - 32 - 16))
          == file.drop (file.length - 32) }

lemma cbcDecBlocks_length (key : Nat → Nat) :
    ∀ (n : Nat) (data prev : List Nat), data.length ≤ n → prev.length = 16 →
      (cbcDecBlocks key prev data).1.length = data.length / 16 * 16 := by
  intro n
  induction n with
  | zero =>
    intro data prev hle _
    have : data = [] := List.eq_nil_of_length_eq_zero (by omega)
    subst this
    simp [cbcDecBlocks_nil]
  | succ n ih =>
    intro data prev hle hp
    by_cases h : 16 ≤ data.length
    · rw [cbcDecBlocks]
      simp only [h, dif_pos]
      have hblk : (decryptBlockBytes key prev (data.take 16)).length = 16 := by
        rw [decryptBlockBytes, xorBlock_length, wtb_length, hp]
        omega
      have htake : (data.take 16).length = 16 := by
        simp only [List.length_take]
        omega
      have hlen := ih (data.drop 16) (data.take 16)
        (by simp only [List.length_drop]; omega) htake
      simp only [List.length_append, hblk, hlen, List.length_drop]
      omega
    · rw [cbcDecBlocks]
      simp only [h, dif_neg, not_false_iff, List.length_nil]
      omega

lemma cbcDecBlocks_snd_length (key : Nat → Nat) :
    ∀ (n : Nat) (data prev : List Nat), data.length ≤ n → prev.length = 16 →
      (cbcDecBlocks key prev data).2.length = 16 := by
  intro n
  induction n with
  | zero =>
    intro data prev hle hp
    have : data = [] := List.eq_nil_of_length_eq_zero (by omega)
    subst this
    simpa [cbcDecBlocks_nil] using hp
  | succ n ih =>
    intro data prev hle hp
    by_cases h : 16 ≤ data.length
    · rw [cbcDecBlocks]
      simp only [h, dif_pos]
      exact ih (data.drop 16) (data.take 16) (by simp only [List.length_drop]; omega)
        (by simp only [List.length_take]; omega)
    · rw [cbcDecBlocks]
      simp only [h, dif_neg, not_false_iff]
      exact hp

lemma encBody_eq_blocks (key : Nat → Nat) :
    ∀ (n : Nat) (input prev : List Nat), input.length ≤ n →
      encBody key prev input = (cbcEncBlocks key prev (pkcs7_pad input)).1 := by
  intro n
  induction n with
  | zero =>
    intro input prev hle
    have : input = [] := List.eq_nil_of_length_eq_zero (by omega)
    subst this
    rw [encBody]
    simp [READ_CHUNK]
  | succ n ih =>
    intro input prev hle
    by_cases h : READ_CHUNK ≤ input.length
    · rw [encBody]
      simp only [h, dif_pos]
      have hsplit : pkcs7_pad input = input.take READ_CHUNK ++ pkcs7_pad (input.drop READ_CHUNK) := by
        rw [pkcs7_pad, pkcs7_pad, List.length_drop]
        have hmod : (input.length - READ_CHUNK) % 16 = input.length % 16 := by
          simp only [READ_CHUNK] at h ⊢
          omega
        rw [hmod, ← List.append_assoc, List.take_append_drop]
      rw [hsplit]
      have htlen : (input.take READ_CHUNK).length = READ_CHUNK := by
        simp only [List.length_take]
        omega
      rw [cbcEncBlocks_append key READ_CHUNK (input.take READ_CHUNK) _ prev
        (by omega) (by rw [htlen]; simp [READ_CHUNK])]
      rw [ih (input.drop READ_CHUNK) _ (by simp only [List.length_drop, READ_CHUNK] at h hle ⊢; omega)]
    · rw [encBody]
      simp only [h, dif_neg, not_false_iff]

lemma encBody_length (key : Nat → Nat) (prev input : List Nat) :
    (encBody key prev input).length = (input.length / 16 + 1) * 16 := by
  rw [encBody_eq_blocks key input.length input prev (le_refl _),
    cbcEncBlocks_length key (pkcs7_pad input).length _ _ (le_refl _),
    pkcs7_pad_length]
  omega

lemma decLoop_eq (key : Nat → Nat) :
    ∀ (n : Nat) (ct prev : List Nat), ct.length ≤ n →
      0 < ct.length → ct.length % 16 = 0 → prev.length = 16 →
      decLoop key prev ct =
        match pkcs7_unpad ((cbcDecBlocks key prev ct).1.drop (ct.length - 16)) with
        | none => ((cbcDecBlocks key prev ct).1.take (ct.length - 16), some DecError.badPad)
        | some rem => ((cbcDecBlocks key prev ct).1.take (ct.length - 16) ++ rem, none) := by
  intro n
  induction n with
  | zero => intro ct prev hle h0 _ _; omega
  | succ n ih =>
    intro ct prev hle h0 hmod hp
    by_cases hbig : READ_CHUNK < ct.length
    · have hr : decLoopChunk ct.length = READ_CHUNK := by
        simp only [decLoopChunk, READ_CHUNK] at hbig hmod ⊢
        omega
      have hRC16 : READ_CHUNK + 16 ≤ ct.length := by
        simp only [READ_CHUNK] at hbig ⊢
        omega
      rw [decLoop, hr]
      rw [dif_neg (show ¬ (READ_CHUNK = 0) by simp [READ_CHUNK]), dif_pos hbig]
      have hslen : (ct.take READ_CHUNK).length = READ_CHUNK := by
        simp only [List.length_take]
        omega
      have hstep2 : (cbcDecBlocks key prev (ct.take READ_CHUNK)).2.length = 16 :=
        cbcDecBlocks_snd_length key READ_CHUNK _ prev (by omega) hp
      have hstep1 : (cbcDecBlocks key prev (ct.take READ_CHUNK)).1.length = READ_CHUNK := by
        rw [cbcDecBlocks_length key READ_CHUNK _ prev (by omega) hp, hslen]
        simp [READ_CHUNK]
      rw [ih (ct.drop READ_CHUNK) _
        (by simp only [List.length_drop]; simp only [READ_CHUNK] at hbig ⊢; omega)
        (by simp only [List.length_drop]; omega)
        (by simp only [List.length_drop]; simp only [READ_CHUNK] at hmod hbig ⊢; omega)
        hstep2]
      have hsplit : cbcDecBlocks key prev ct =
          ((cbcDecBlocks key prev (ct.take READ_CHUNK)).1 ++
            (cbcDecBlocks key (cbcDecBlocks key prev (ct.take READ_CHUNK)).2
              (ct.drop READ_CHUNK)).1,
           (cbcDecBlocks key (cbcDecBlocks key prev (ct.take READ_CHUNK)).2
              (ct.drop READ_CHUNK)).2) := by
        conv_lhs => rw [← List.take_append_drop READ_CHUNK ct]
        rw [cbcDecBlocks_append key READ_CHUNK _ _ prev (by omega)
          (by rw [hslen]; simp [READ_CHUNK])]
      rw [hsplit]
      have hdl : (ct.drop READ_CHUNK).length = ct.length - READ_CHUNK := by
        simp only [List.length_drop]
      have hXle : (cbcDecBlocks key prev (ct.take READ_CHUNK)).1.length ≤ ct.length - 16 := by
        omega
      have hidx : ct.length - 16 - (cbcDecBlocks key prev (ct.take READ_CHUNK)).1.length
          = (ct.drop READ_CHUNK).length - 16 := by
        omega
      have hdrop : ((cbcDecBlocks key prev (ct.take READ_CHUNK)).1 ++
          (cbcDecBlocks key (cbcDecBlocks key prev (ct.take READ_CHUNK)).2
            (ct.drop READ_CHUNK)).1).drop (ct.length - 16)
          = (cbcDecBlocks key (cbcDecBlocks key prev (ct.take READ_CHUNK)).2
              (ct.drop READ_CHUNK)).1.drop ((ct.drop READ_CHUNK).length - 16) := by
        rw [List.drop_append_eq_append_drop, List.drop_eq_nil_of_le hXle, hidx,
          List.nil_append]
      have htake : ((cbcDecBlocks key prev (ct.take READ_CHUNK)).1 ++
          (cbcDecBlocks key (cbcDecBlocks key prev (ct.take READ_CHUNK)).2
            (ct.drop READ_CHUNK)).1).take (ct.length - 16)
          = (cbcDecBlocks key prev (ct.take READ_CHUNK)).1 ++
            (cbcDecBlocks key (cbcDecBlocks key prev (ct.take READ_CHUNK)).2
              (ct.drop READ_CHUNK)).1.take ((ct.drop READ_CHUNK).length - 16) := by
        rw [List.take_append_eq_append_take, List.take_of_length_le hXle, hidx]
      rw [hdrop, htake]
      cases hu : pkcs7_unpad ((cbcDecBlocks key (cbcDecBlocks key prev (ct.take READ_CHUNK)).2
          (ct.drop READ_CHUNK)).1.drop ((ct.drop READ_CHUNK).length - 16)) with
      | none => simp
      | some rem => simp [List.append_assoc]
    · have hr : decLoopChunk ct.length = ct.length := by
        simp only [decLoopChunk, READ_CHUNK] at hbig hmod ⊢
        omega
      rw [decLoop, hr]
      rw [dif_neg (by omega), dif_neg (by omega), if_neg (by omega), List.take_length]

lemma decrypt_encrypt_roundtrip (key : Nat → Nat) (iv p : List Nat)
    (hiv : iv.length = 16) (hivb : ∀ x ∈ iv, x < 256) (hpb : ∀ x ∈ p, x < 256) :
    cbc_decrypt_stream key (cbc_encrypt_stream key iv p)
      = { emitted := p, err := none, authOk := true } := by
  have hctlen : (encBody key iv p).length = (p.length / 16 + 1) * 16 := encBody_length key iv p
  have hct16 : 16 ≤ (encBody key iv p).length := by omega
  have hctmod : (encBody key iv p).length % 16 = 0 := by omega
  have hfl : (iv ++ encBody key iv p ++ sha256Bytes (encBody key iv p)).length
      = (encBody key iv p).length + 48 := by
    simp only [List.length_append, hiv, sha256Bytes_length]
    omega
  have hivct : 16 ≤ (iv ++ encBody key iv p).length := by
    simp only [List.length_append, hiv]
    omega
  rw [cbc_encrypt_stream, cbc_decrypt_stream, hfl]
  rw [if_neg (by omega), if_neg (by omega)]
  rw [show (encBody key iv p).length + 48 - 32 - 16 = (encBody key iv p).length from by omega]
  rw [List.take_append_of_le_length hivct, List.take_left' hiv]
  rw [List.drop_append_of_le_length hivct, List.drop_left' hiv]
  rw [List.take_left' rfl]
  rw [decLoop_eq key (encBody key iv p).length _ _ (le_refl _) (by omega) hctmod hiv]
  have hctblocks : encBody key iv p = (cbcEncBlocks key iv (pkcs7_pad p)).1 :=
    encBody_eq_blocks key p.length p iv (le_refl _)
  have hdec1 : (cbcDecBlocks key iv (encBody key iv p)).1 = pkcs7_pad p := by
    rw [hctblocks, cbcDecBlocks_cbcEncBlocks key (pkcs7_pad p).length (pkcs7_pad p) iv
      (le_refl _) (pkcs7_pad_length_mod p) (pkcs7_pad_bytes_lt p hpb) hiv hivb]
  have hidx : (encBody key iv p).length - 16 = p.length - p.length % 16 := by
    omega
  have hdropb : (pkcs7_pad p).drop ((encBody key iv p).length - 16)
      = p.drop (p.length - p.length % 16) ++
        List.replicate (16 - p.length % 16) (16 - p.length % 16) := by
    rw [hidx, pkcs7_pad, List.drop_append_of_le_length (by omega)]
  have hunpad : pkcs7_unpad (p.drop (p.length - p.length % 16) ++
      List.replicate (16 - p.length % 16) (16 - p.length % 16))
      = some (p.drop (p.length - p.length % 16)) := by
    apply pkcs7_unpad_pkcs7
    · omega
    · omega
    · simp only [List.length_drop]
      omega
  have htakeb : (pkcs7_pad p).take ((encBody key iv p).length - 16)
      = p.take (p.length - p.length % 16) := by
    rw [hidx, pkcs7_pad, List.take_append_of_le_length (by omega)]
  rw [hdec1, hdropb, hunpad, htakeb]
  simp [List.take_append_drop]
  rw [List.drop_append_eq_append_drop, List.drop_eq_nil_of_le (by omega), List.nil_append, hiv,
    show (encBody key iv p).length + 16 - 16 = (encBody key iv p).length from by omega,
    List.drop_left' rfl]

/-- C1: for every plaintext and password-derived key schedule, decrypting
the output of encryption (with the IV that was generated) succeeds,
emits exactly the plaintext, and reports authentication true. -/
theorem C1_decrypt_of_encrypt_roundtrip (key : Nat → Nat) (iv p : List Nat)
    (hiv : iv.length = 16) (hivb : ∀ x ∈ iv, x < 256) (hpb : ∀ x ∈ p, x < 256) :
    cbc_decrypt_stream key (cbc_encrypt_stream key iv p)
      = { emitted := p, err := none, authOk := true } :=
  decrypt_encrypt_roundtrip key iv p hiv hivb hpb

/-- Witness for C1 at a concrete key, IV and one-byte plaintext. -/
theorem C1_decrypt_of_encrypt_roundtrip_witness :
    (List.replicate 16 0 : List Nat).length = 16 ∧
    cbc_decrypt_stream (fun _ => 0)
        (cbc_encrypt_stream (fun _ => 0) (List.replicate 16 0) [97])
      = { emitted := [97], err := none, authOk := true } :=
  ⟨by decide, C1_decrypt_of_encrypt_roundtrip (fun _ => 0) (List.replicate 16 0) [97]
    (by decide) (by decide) (by decide)⟩

/-- C5: the encrypted output is IV (16 bytes) plus ciphertext plus tag
(32 bytes); the ciphertext length is `(⌊L/16⌋ + 1) * 16`, a positive
multiple of 16, strictly greater than the plaintext length `L` by 1 to 16
bytes (exactly `16 - L % 16`, a full extra block when `L % 16 = 0`). -/
theorem C5_output_lengths (key : Nat → Nat) (iv p : List Nat) (hiv : iv.length = 16) :
    (encBody key iv p).length = (p.length / 16 + 1) * 16 ∧
    (cbc_encrypt_stream key iv p).length = 16 + (encBody key iv p).length + 32 ∧
    (encBody key iv p).length % 16 = 0 ∧
    0 < (encBody key iv p).length ∧
    p.length < (encBody key iv p).length ∧
    (encBody key iv p).length ≤ p.length + 16 ∧
    (encBody key iv p).length = p.length + (16 - p.length % 16) := by
  have hlen := encBody_length key iv p
  refine ⟨hlen, ?_, by omega, by omega, by omega, by omega, by omega⟩
  rw [cbc_encrypt_stream]
  simp only [List.length_append, hiv, sha256Bytes_length]

/-- Witness for C5 at a concrete key, IV and empty plaintext (the
0-byte-input scenario: 16-byte ciphertext, 64 bytes in total). -/
theorem C5_output_lengths_witness :
    (List.replicate 16 0 : List Nat).length = 16 ∧
    (cbc_encrypt_stream (fun _ => 0) (List.replicate 16 0) []).length
      = 16 + (encBody (fun _ => 0) (List.replicate 16 0) []).length + 32 ∧
    (encBody (fun _ => 0) (List.replicate 16 0) []).length = (0 / 16 + 1) * 16 := by
  have h := C5_output_lengths (fun _ => 0) (List.replicate 16 0) [] (by decide)
  exact ⟨by decide, h.2.1, h.1⟩

lemma encTail_length : ∀ (n : Nat) (input : List Nat), input.length ≤ n →
    (encTail input).length = input.length % READ_CHUNK := by
  intro n
  induction n with
  | zero =>
    intro input hle
    have : input = [] := List.eq_nil_of_length_eq_zero (by omega)
    subst this
    rw [encTail]
    simp [READ_CHUNK]
  | succ n ih =>
    intro input hle
    by_cases h : READ_CHUNK ≤ input.length
    · rw [encTail]
      rw [dif_pos h]
      rw [ih (input.drop READ_CHUNK)
        (by simp only [List.length_drop]; simp only [READ_CHUNK] at h ⊢; omega)]
      simp only [List.length_drop]
      simp only [READ_CHUNK] at h ⊢
      omega
    · rw [encTail, dif_neg h]
      simp only [READ_CHUNK] at h ⊢
      omega

lemma encBody_pads_encTail (key : Nat → Nat) : ∀ (n : Nat) (input prev : List Nat),
    input.length ≤ n → ∃ pre prev2, encBody key prev input
      = pre ++ (cbcEncBlocks key prev2 (pkcs7_pad (encTail input))).1 := by
  intro n
  induction n with
  | zero =>
    intro input prev hle
    have : input = [] := List.eq_nil_of_length_eq_zero (by omega)
    subst this
    refine ⟨[], prev, ?_⟩
    rw [encBody, encTail]
    simp [READ_CHUNK]
  | succ n ih =>
    intro input prev hle
    by_cases h : READ_CHUNK ≤ input.length
    · obtain ⟨pre, prev2, hrec⟩ := ih (input.drop READ_CHUNK)
        (cbcEncBlocks key prev (input.take READ_CHUNK)).2
        (by simp only [List.length_drop]; simp only [READ_CHUNK] at h ⊢; omega)
      have htail : encTail input = encTail (input.drop READ_CHUNK) := by
        rw [encTail, dif_pos h]
      refine ⟨(cbcEncBlocks key prev (input.take READ_CHUNK)).1 ++ pre, prev2, ?_⟩
      rw [encBody, dif_pos h, hrec, htail, List.append_assoc]
    · refine ⟨[], prev, ?_⟩
      rw [encBody, dif_neg h, encTail, dif_neg h, List.nil_append]

/-- C9 (amended): in every encrypt run the carry between full-chunk reads
is 0 bytes (`READ_CHUNK` is a multiple of 16, so the claimed 0-15 bound
holds trivially there), but the final remainder to which the unconditional
padding is applied is the whole last short read — anywhere from 0 to
`READ_CHUNK - 1` bytes, not 0-15; after padding it is a multiple of 16,
so cipher operations still only act on whole 16-byte blocks. -/
theorem C9_carry_zero_tail_below_chunk (key : Nat → Nat) (prev input : List Nat) :
    encCarryRem = 0 ∧
    (encTail input).length = input.length % READ_CHUNK ∧
    (encTail input).length % 16 = input.length % 16 ∧
    (pkcs7_pad (encTail input)).length % 16 = 0 ∧
    ∃ pre prev2, encBody key prev input
      = pre ++ (cbcEncBlocks key prev2 (pkcs7_pad (encTail input))).1 := by
  have h1 := encTail_length input.length input (le_refl _)
  refine ⟨by decide, h1, ?_, pkcs7_pad_length_mod _, encBody_pads_encTail key input.length input prev (le_refl _)⟩
  rw [h1]
  simp only [READ_CHUNK]
  omega

/-- C9 (counterexample): for the 16-byte input, the encrypt loop reads it
in one short read and applies the unconditional padding to all 16 bytes —
the final remainder is 16 bytes, not 0-15 as claimed. -/
theorem C9_counterexample_sixteen_byte_tail :
    encTail (List.replicate 16 0) = List.replicate 16 0 ∧
    ¬ ((encTail (List.replicate 16 0)).length ≤ 15) ∧
    encBody (fun _ => 0) (List.replicate 16 0) (List.replicate 16 0)
      = (cbcEncBlocks (fun _ => 0) (List.replicate 16 0)
          (pkcs7_pad (List.replicate 16 0))).1 := by
  have htail : encTail (List.replicate 16 (0 : Nat)) = List.replicate 16 0 := by
    rw [encTail, dif_neg (by decide)]
  refine ⟨htail, by rw [htail]; decide, ?_⟩
  rw [encBody, dif_neg (by decide)]

lemma decLoopChunk_ge (len : Nat) (h0 : 0 < len) (hmod : len % 16 = 0) :
    16 ≤ decLoopChunk len ∧ decLoopChunk len % 16 = 0 := by
  simp only [decLoopChunk, READ_CHUNK]
  omega

lemma decLoop_no_shortChunk (key : Nat → Nat) : ∀ (n : Nat) (ct prev : List Nat),
    ct.length ≤ n → 0 < ct.length → ct.length % 16 = 0 →
    (decLoop key prev ct).2 ≠ some DecError.shortChunk := by
  intro n
  induction n with
  | zero => intro ct prev hle h0 _; omega
  | succ n ih =>
    intro ct prev hle h0 hmod
    obtain ⟨hge, hchmod⟩ := decLoopChunk_ge ct.length h0 hmod
    rw [decLoop, dif_neg (by omega)]
    by_cases hlt : decLoopChunk ct.length < ct.length
    · rw [dif_pos hlt]
      have hdlen : 0 < (ct.drop (decLoopChunk ct.length)).length := by
        simp only [List.length_drop]
        omega
      have hdmod : (ct.drop (decLoopChunk ct.length)).length % 16 = 0 := by
        simp only [List.length_drop]
        omega
      exact ih (ct.drop (decLoopChunk ct.length)) _
        (by simp only [List.length_drop]; omega) hdlen hdmod
    · rw [dif_neg hlt, if_neg (by omega)]
      cases hu : pkcs7_unpad ((cbcDecBlocks key prev (ct.take (decLoopChunk ct.length))).1.drop
          (decLoopChunk ct.length - 16)) with
      | none => simp
      | some rem => simp

/-- C10: for every decrypt input passing the format checks, each chunk
read in the decrypt loop is a positive multiple of 16 bytes (in fact at
least 16), so the defensive error branch taken when the last chunk is
shorter than one block is unreachable. -/
theorem C10_chunks_block_aligned :
    (∀ len, 0 < len → len % 16 = 0 →
      16 ≤ decLoopChunk len ∧ decLoopChunk len % 16 = 0) ∧
    (∀ (key : Nat → Nat) (prev ct : List Nat), 0 < ct.length → ct.length % 16 = 0 →
      (decLoop key prev ct).2 ≠ some DecError.shortChunk) :=
  ⟨decLoopChunk_ge,
   fun key prev ct h0 hmod => decLoop_no_shortChunk key ct.length ct prev (le_refl _) h0 hmod⟩

/-- Witness for C10 at a concrete 16-byte ciphertext. -/
theorem C10_chunks_block_aligned_witness :
    (16 ≤ decLoopChunk 16 ∧ decLoopChunk 16 % 16 = 0) ∧
    (decLoop (fun _ => 0) (List.replicate 16 0) (List.replicate 16 0)).2
      ≠ some DecError.shortChunk :=
  ⟨C10_chunks_block_aligned.1 16 (by decide) (by decide),
   C10_chunks_block_aligned.2 (fun _ => 0) (List.replicate 16 0) (List.replicate 16 0)
     (by decide) (by decide)⟩

/-- C6: the decrypt loop fails with a padding error exactly when the
withheld final decrypted block violates the padding rule; on such a
failure everything before the final block has already been emitted to the
sink, and on success the unpadded remainder (0-15 bytes) of the final
block is emitted after it. -/
theorem C6_padding_error_iff_invalid_final_block (key : Nat → Nat) (prev ct : List Nat)
    (h0 : 0 < ct.length) (hmod : ct.length % 16 = 0) (hp : prev.length = 16) :
    ((decLoop key prev ct).2 = some DecError.badPad ↔
      ¬ validPad ((cbcDecBlocks key prev ct).1.drop (ct.length - 16))) ∧
    (¬ validPad ((cbcDecBlocks key prev ct).1.drop (ct.length - 16)) →
      (decLoop key prev ct).1 = (cbcDecBlocks key prev ct).1.take (ct.length - 16)) ∧
    (validPad ((cbcDecBlocks key prev ct).1.drop (ct.length - 16)) →
      (decLoop key prev ct).1
        = (cbcDecBlocks key prev ct).1.take (ct.length - 16) ++
          ((cbcDecBlocks key prev ct).1.drop (ct.length - 16)).take
            (16 - byteAt ((cbcDecBlocks key prev ct).1.drop (ct.length - 16)) 15) ∧
      16 - byteAt ((cbcDecBlocks key prev ct).1.drop (ct.length - 16)) 15 ≤ 15) := by
  have hlen1 : (cbcDecBlocks key prev ct).1.length = ct.length := by
    rw [cbcDecBlocks_length key ct.length ct prev (le_refl _) hp]
    omega
  have hlast : ((cbcDecBlocks key prev ct).1.drop (ct.length - 16)).length = 16 := by
    simp only [List.length_drop, hlen1]
    omega
  rw [decLoop_eq key ct.length ct prev (le_refl _) h0 hmod hp,
    pkcs7_unpad_sixteen _ hlast]
  by_cases hv : validPad ((cbcDecBlocks key prev ct).1.drop (ct.length - 16))
  · rw [if_pos hv]
    refine ⟨by simp [hv], fun hnv => absurd hv hnv, fun _ => ⟨by simp, ?_⟩⟩
    have h1 := hv.1
    omega
  · rw [if_neg hv]
    exact ⟨by simp [hv], fun _ => by simp, fun hvv => absurd hvv hv⟩

/-- Witness for C6 at a concrete key, chain value and single-block
ciphertext. -/
theorem C6_padding_error_iff_invalid_final_block_witness :
    0 < (List.replicate 16 (0 : Nat)).length ∧
    ((decLoop (fun _ => 0) (List.replicate 16 0) (List.replicate 16 0)).2
        = some DecError.badPad ↔
      ¬ validPad ((cbcDecBlocks (fun _ => 0) (List.replicate 16 0)
        (List.replicate 16 0)).1.drop ((List.replicate 16 (0 : Nat)).length - 16))) :=
  ⟨by decide,
   (C6_padding_error_iff_invalid_final_block (fun _ => 0) (List.replicate 16 0)
     (List.replicate 16 0) (by decide) (by decide) (by decide)).1⟩

lemma cbc_decrypt_parse (key : Nat → Nat) (body tag : List Nat) (htag : tag.length = 32)
    (h16 : 16 ≤ body.length) (hne : body.length - 16 ≠ 0)
    (hmod : (body.length - 16) % 16 = 0) :
    cbc_decrypt_stream key (body ++ tag) =
      match decLoop key (body.take 16) (body.drop 16) with
      | (out, some e) => { emitted := out, err := some e, authOk := false }
      | (out, none) =>
        { emitted := out, err := none, authOk := sha256Bytes (body.drop 16) == tag } := by
  have hlen : (body ++ tag).length = body.length + 32 := by
    simp [htag]
  rw [cbc_decrypt_stream, hlen]
  rw [if_neg (by omega), if_neg (by omega)]
  rw [show body.length + 32 - 32 - 16 = body.length - 16 from by omega]
  rw [List.take_append_of_le_length h16, List.drop_append_of_le_length h16]
  rw [List.take_append_of_le_length
    (show body.length - 16 ≤ (body.drop 16).length by simp only [List.length_drop]; omega)]
  rw [List.take_of_length_le
    (show (body.drop 16).length ≤ body.length - 16 by simp only [List.length_drop]; omega)]
  rw [show body.length + 32 - 32 = body.length from by omega]
  rw [List.drop_left' rfl]

/-- C7: on a decrypt run that passes the format and padding checks, a
mismatch of the stored 32-byte trailer is non-fatal: replacing the trailer
by any other 32-byte value leaves the run successful with the identical
emitted plaintext, and only the separate boolean authentication status
(the comparison of the recomputed digest with the stored trailer)
changes. -/
theorem C7_auth_mismatch_nonfatal (key : Nat → Nat) (body tag tag2 : List Nat)
    (htag : tag.length = 32) (htag2 : tag2.length = 32)
    (hok : (cbc_decrypt_stream key (body ++ tag)).err = none) :
    (cbc_decrypt_stream key (body ++ tag2)).err = none ∧
    (cbc_decrypt_stream key (body ++ tag2)).emitted
      = (cbc_decrypt_stream key (body ++ tag)).emitted ∧
    (cbc_decrypt_stream key (body ++ tag2)).authOk
      = (sha256Bytes (body.drop 16) == tag2) := by
  have hlen : (body ++ tag).length = body.length + 32 := by
    simp [htag]
  have h16 : 16 ≤ body.length := by
    by_contra hlt
    rw [cbc_decrypt_stream, hlen, if_pos (by omega)] at hok
    simp at hok
  have hgood : ¬ (body.length - 16 = 0 ∨ (body.length - 16) % 16 ≠ 0) := by
    intro hbad
    rw [cbc_decrypt_stream, hlen, if_neg (by omega),
      if_pos (by omega)] at hok
    simp at hok
  have hne : body.length - 16 ≠ 0 := by omega
  have hmod : (body.length - 16) % 16 = 0 := by omega
  rw [cbc_decrypt_parse key body tag htag h16 hne hmod] at hok ⊢
  rw [cbc_decrypt_parse key body tag2 htag2 h16 hne hmod]
  cases hdl : decLoop key (body.take 16) (body.drop 16) with
  | mk out oerr =>
    rw [hdl] at hok
    cases oerr with
    | some e => simp at hok
    | none => exact ⟨rfl, rfl, rfl⟩

/-- Witness for C7: the encryption of the empty plaintext decrypts
successfully, and the theorem applies with the all-zero replacement
trailer. -/
theorem C7_auth_mismatch_nonfatal_witness :
    (cbc_decrypt_stream (fun _ => 0)
        ((List.replicate 16 0 ++ encBody (fun _ => 0) (List.replicate 16 0) []) ++
          List.replicate 32 0)).err = none ∧
    (cbc_decrypt_stream (fun _ => 0)
        ((List.replicate 16 0 ++ encBody (fun _ => 0) (List.replicate 16 0) []) ++
          List.replicate 32 0)).authOk
      = (sha256Bytes ((List.replicate 16 0 ++
          encBody (fun _ => 0) (List.replicate 16 0) []).drop 16) == List.replicate 32 0) := by
  have hok : (cbc_decrypt_stream (fun _ => 0)
      ((List.replicate 16 0 ++ encBody (fun _ => 0) (List.replicate 16 0) []) ++
        sha256Bytes (encBody (fun _ => 0) (List.replicate 16 0) []))).err = none := by
    rw [show (List.replicate 16 (0 : Nat) ++ encBody (fun _ => 0) (List.replicate 16 0) []) ++
        sha256Bytes (encBody (fun _ => 0) (List.replicate 16 0) [])
      = cbc_encrypt_stream (fun _ => 0) (List.replicate 16 0) [] from rfl]
    rw [decrypt_encrypt_roundtrip (fun _ => 0) (List.replicate 16 0) []
      (by decide) (by decide) (by decide)]
  have h := C7_auth_mismatch_nonfatal (fun _ => 0)
    (List.replicate 16 0 ++ encBody (fun _ => 0) (List.replicate 16 0) [])
    (sha256Bytes (encBody (fun _ => 0) (List.replicate 16 0) []))
    (List.replicate 32 0) (sha256Bytes_length _) (by decide) hok
  exact ⟨h.1, h.2.2⟩


/-- Substitution table `s4` of the key-derivation hash `hashing`
(a fixed permutation of 0..255). -/
def s4 : List Nat :=
  [13,199,11,67,237,193,164,77,115,184,141,222,73,38,147,36,
   150,87,21,104,12,61,156,101,111,145,119,22,207,35,198,37,
   171,167,80,30,219,28,213,121,86,29,214,242,6,4,89,162,
   110,175,19,157,3,88,234,94,144,118,159,239,100,17,182,173,
   238,68,16,79,132,54,163,52,9,58,57,55,229,192,170,226,
   56,231,187,158,70,224,233,245,26,47,32,44,247,8,251,20,
   197,185,109,153,204,218,93,178,212,137,84,174,24,120,130,149,
   72,180,181,208,255,189,152,18,143,176,60,249,27,227,128,139,
   243,253,59,123,172,108,211,96,138,10,215,42,225,40,81,65,
   90,25,98,126,154,64,124,116,122,5,1,168,83,190,131,191,
   244,240,235,177,155,228,125,66,43,201,248,220,129,188,230,62,
   75,71,78,34,31,216,254,136,91,114,106,46,217,196,92,151,
   209,133,51,236,33,252,127,179,69,7,183,105,146,97,39,15,
   205,112,200,166,223,45,48,246,186,41,148,140,107,76,85,95,
   194,142,50,49,134,23,135,169,221,210,203,63,165,82,161,202,
   53,14,206,232,103,102,195,117,250,99,0,74,160,241,2,113]

/-- State of the key-derivation hash: running accumulator `x1`, window
cursor `x2`, 512-byte checksum array `h2`, 1536-byte work buffer `h1`
(modelled as functions from index to byte). -/
structure KeyHashState where
  x1 : Nat
  x2 : Nat
  h2 : Nat → Nat
  h1 : Nat → Nat

/-- Pointwise update of a byte-array-as-function. -/
def upd (h : Nat → Nat) (i v : Nat) : Nat → Nat := fun j => if j = i then v else h j

/-- State set up by `init_gost_keyhash`: everything zero. -/
def init_gost_keyhash : KeyHashState :=
  { x1 := 0, x2 := 0, h2 := fun _ => 0, h1 := fun _ => 0 }

/-- One step `b2 = h1[b1] ^= s4[b2]` of the compression pass. -/
def compressInner (st : (Nat → Nat) × Nat) (b1 : Nat) : (Nat → Nat) × Nat :=
  (upd st.1 b1 (st.1 b1 ^^^ byteAt s4 st.2), st.1 b1 ^^^ byteAt s4 st.2)

/-- One of the `n1 + 2` passes of the compression loop, followed by the
perturbation `b2 = (b2 + b3) % 256`. -/
def compressPass (st : (Nat → Nat) × Nat) (b3 : Nat) : (Nat → Nat) × Nat :=
  (((List.range (512 * 3)).foldl compressInner st).1,
   (((List.range (512 * 3)).foldl compressInner st).2 + b3) % 256)

/-- The whole compression of `hashing` when the 512-byte window fills:
`n1 + 2` passes over the full `3 * n1`-byte work buffer, chained through
the running value `b2` starting at 0. -/
def compress (h1 : Nat → Nat) : Nat → Nat :=
  (((List.range (512 + 2)).foldl compressPass (h1, 0))).1

/-- Processing of one input byte by `hashing`: store the byte at
`h1[x2 + n1]`, its XOR with `h1[x2]` at `h1[x2 + 2*n1]`, update the
checksum entry and the accumulator through `s4`, advance the cursor, and
run the compression pass when the window reaches 512 bytes. -/
def hashByte (st : KeyHashState) (b5 : Nat) : KeyHashState :=
  let h1b := upd (upd st.h1 (st.x2 + 512) b5) (st.x2 + 1024) (b5 ^^^ st.h1 st.x2)
  let hv := st.h2 st.x2 ^^^ byteAt s4 (b5 ^^^ st.x1)
  let h2a := upd st.h2 st.x2 hv
  if st.x2 + 1 = 512 then
    { x1 := hv, x2 := 0, h2 := h2a, h1 := compress h1b }
  else
    { x1 := hv, x2 := st.x2 + 1, h2 := h2a, h1 := h1b }

/-- Function `hashing` over a byte sequence (the C loop feeds one byte at a time;
compression fires exactly when the cursor reaches `n1`). -/
def hashing (st : KeyHashState) (msg : List Nat) : KeyHashState :=
  msg.foldl hashByte st

/-- Padding block fed by `end_gost_keyhash`: `n4 = n1 - x2` bytes, each
`(unsigned char)n4`, i.e. `n4 % 256` (the truncation matters exactly when
`x2 = 0`, where `n4 = 512` stores byte value 0). -/
def keyhashPad (st : KeyHashState) : List Nat :=
  List.replicate (512 - st.x2) ((512 - st.x2) % 256)

/-- Function `end_gost_keyhash`: feed the length padding, then feed the checksum
array `h2` itself, and return the work buffer as the digest (`h4` is its
first 512 bytes). Feeding `h2` aliases the array being updated, but each
byte is read before the entry at the same index is written (the cursor is
0 at that point and advances with the read position), so the bytes fed
are the snapshot of `h2` at call time. -/
def end_gost_keyhash (st : KeyHashState) : Nat → Nat :=
  (hashing (hashing st (keyhashPad st))
    ((List.range 512).map (hashing st (keyhashPad st)).h2)).h1

/-- Function `create_keys`: subkey `i` packs digest bytes `8i..8i+7` big-endian,
each masked with `0xff`. -/
def create_keys (h4 : Nat → Nat) (i : Nat) : Nat :=
  (List.range 8).foldl (fun acc z => (acc <<< 8) + (h4 (8 * i + z) &&& 255)) 0

/-- Function `derive_gost_subkeys_from_password`: initialize, hash the password
once, finalize, expand to the 64 subkeys. -/
def derive_gost_subkeys_from_password (pw : List Nat) : Nat → Nat :=
  create_keys (end_gost_keyhash (hashing init_gost_keyhash pw))

/-- Padding block as the specification literally words it: bytes all
equal to the remaining window length (no byte truncation). -/
def padSpecLiteral (st : KeyHashState) : List Nat :=
  List.replicate (512 - st.x2) (512 - st.x2)

/-- Slicing of the digest as the specification words it: 64 consecutive
8-byte big-endian unsigned integers. -/
def sliceSubkeysSpec (digest : Nat → Nat) (i : Nat) : Nat :=
  digest (8 * i) * 2 ^ 56 + digest (8 * i + 1) * 2 ^ 48 + digest (8 * i + 2) * 2 ^ 40 +
    digest (8 * i + 3) * 2 ^ 32 + digest (8 * i + 4) * 2 ^ 24 + digest (8 * i + 5) * 2 ^ 16 +
    digest (8 * i + 6) * 2 ^ 8 + digest (8 * i + 7)

/-- Specification-side subkey derivation, with the padding amended to use
the remaining window length reduced modulo 256: one update with the
password, the finalize sequence (length padding, then the checksum
array), then the big-endian slicing of the first 512 digest bytes. -/
def deriveSubkeysSpecAmended (pw : List Nat) : Nat → Nat :=
  let st0 := hashing init_gost_keyhash pw
  let st1 := hashing st0 (List.replicate (512 - st0.x2) ((512 - st0.x2) % 256))
  let st2 := hashing st1 ((List.range 512).map st1.h2)
  sliceSubkeysSpec st2.h1

lemma foldl_preserve {α β : Type} (P : α → Prop) (f : α → β → α) :
    ∀ (l : List β) (s : α), P s → (∀ s b, b ∈ l → P s → P (f s b)) → P (l.foldl f s) := by
  intro l
  induction l with
  | nil => intro s hs _; exact hs
  | cons b l ih =>
    intro s hs hstep
    exact ih (f s b) (hstep s b (by simp) hs)
      (fun s' b' hb' hs' => hstep s' b' (by simp [hb']) hs')

lemma xor255 {a b : Nat} (ha : a < 256) (hb : b < 256) : a ^^^ b < 256 := by
  have h := Nat.xor_lt_two_pow (show a < 2 ^ 8 by omega) (show b < 2 ^ 8 by omega)
  omega

lemma s4_byte_lt (i : Nat) : byteAt s4 i < 256 := by
  rw [byteAt]
  exact getD_lt_of_forall (by norm_num) (by decide) i

lemma upd_lt {h : Nat → Nat} {v m : Nat} (hh : ∀ j, h j < m) (hv : v < m) (i : Nat) :
    ∀ j, upd h i v j < m := by
  intro j
  rw [upd]
  split
  · exact hv
  · exact hh j

/-- Boundedness of the key-derivation hash state: accumulator and all
array entries are bytes. -/
def GoodState (st : KeyHashState) : Prop :=
  st.x1 < 256 ∧ (∀ j, st.h1 j < 256) ∧ (∀ j, st.h2 j < 256)

lemma compress_good {h1 : Nat → Nat} (hh : ∀ j, h1 j < 256) : ∀ j, compress h1 j < 256 := by
  have hmain : (∀ j, (((List.range (512 + 2)).foldl compressPass (h1, 0))).1 j < 256) ∧
      (((List.range (512 + 2)).foldl compressPass (h1, 0))).2 < 256 := by
    have := foldl_preserve (fun st : (Nat → Nat) × Nat => (∀ j, st.1 j < 256) ∧ st.2 < 256)
      compressPass (List.range (512 + 2)) (h1, 0) ⟨hh, by norm_num⟩ ?_
    · exact this
    · intro st b3 _ hst
      have hinner := foldl_preserve (fun st : (Nat → Nat) × Nat => (∀ j, st.1 j < 256) ∧ st.2 < 256)
        compressInner (List.range (512 * 3)) st hst ?_
      · exact ⟨hinner.1, by
          rw [compressPass]
          exact Nat.mod_lt _ (by norm_num)⟩
      · intro st' b1 _ hst'
        refine ⟨upd_lt hst'.1 (xor255 (hst'.1 b1) (s4_byte_lt st'.2)) b1, ?_⟩
        exact xor255 (hst'.1 b1) (s4_byte_lt st'.2)
  intro j
  exact hmain.1 j

lemma hashByte_good {st : KeyHashState} {b5 : Nat} (hst : GoodState st) (hb : b5 < 256) :
    GoodState (hashByte st b5) := by
  obtain ⟨hx1, hh1, hh2⟩ := hst
  have hv : st.h2 st.x2 ^^^ byteAt s4 (b5 ^^^ st.x1) < 256 :=
    xor255 (hh2 st.x2) (s4_byte_lt _)
  have hh1b : ∀ j, upd (upd st.h1 (st.x2 + 512) b5) (st.x2 + 1024)
      (b5 ^^^ st.h1 st.x2) j < 256 :=
    upd_lt (upd_lt hh1 hb _) (xor255 hb (hh1 st.x2)) _
  have hc : ∀ j, compress (upd (upd st.h1 (st.x2 + 512) b5) (st.x2 + 1024)
      (b5 ^^^ st.h1 st.x2)) j < 256 := compress_good hh1b
  rw [hashByte]
  split
  · exact ⟨hv, hc, upd_lt hh2 hv _⟩
  · exact ⟨hv, hh1b, upd_lt hh2 hv _⟩

lemma hashing_good {st : KeyHashState} {msg : List Nat} (hst : GoodState st)
    (hmsg : ∀ b ∈ msg, b < 256) : GoodState (hashing st msg) := by
  rw [hashing]
  exact foldl_preserve GoodState hashByte msg st hst
    (fun s b hb hs => hashByte_good hs (hmsg b hb))

lemma init_good : GoodState init_gost_keyhash :=
  ⟨by norm_num [init_gost_keyhash], fun _ => by norm_num [init_gost_keyhash],
   fun _ => by norm_num [init_gost_keyhash]⟩

lemma end_gost_keyhash_lt {st : KeyHashState} (hst : GoodState st) :
    ∀ j, end_gost_keyhash st j < 256 := by
  have hpad : ∀ b ∈ keyhashPad st, b < 256 := by
    intro b hb
    have := List.eq_of_mem_replicate hb
    subst this
    exact Nat.mod_lt _ (by norm_num)
  have hst1 : GoodState (hashing st (keyhashPad st)) := hashing_good hst hpad
  have hsnap : ∀ b ∈ (List.range 512).map (hashing st (keyhashPad st)).h2, b < 256 := by
    intro b hb
    rw [List.mem_map] at hb
    obtain ⟨a, _, rfl⟩ := hb
    exact hst1.2.2 a
  have hst2 : GoodState (hashing (hashing st (keyhashPad st))
      ((List.range 512).map (hashing st (keyhashPad st)).h2)) := hashing_good hst1 hsnap
  exact fun j => hst2.2.1 j

lemma create_keys_eq_slice (h4 : Nat → Nat) (hb : ∀ j, h4 j < 256) :
    create_keys h4 = sliceSubkeysSpec h4 := by
  funext i
  have hmask : ∀ z, h4 z &&& 255 = h4 z := by
    intro z
    rw [and255_eq_mod, Nat.mod_eq_of_lt (hb z)]
  rw [create_keys, show List.range 8 = [0, 1, 2, 3, 4, 5, 6, 7] from rfl]
  simp only [List.foldl, Nat.shiftLeft_eq, hmask]
  rw [sliceSubkeysSpec]
  ring_nf

/-- C4 (amended): subkey derivation is one `update` with the password,
then a finalize that pads the unfilled window remainder with bytes all
equal to the remaining window length reduced modulo 256 and feeds that
and then the 512-byte checksum array into `update`, then slices the
first 512 digest bytes into 64 consecutive 8-byte big-endian unsigned
integers. -/
theorem C4_derivation_pipeline (pw : List Nat) (hpw : ∀ b ∈ pw, b < 256) :
    derive_gost_subkeys_from_password pw = deriveSubkeysSpecAmended pw := by
  have hgood : ∀ j, end_gost_keyhash (hashing init_gost_keyhash pw) j < 256 :=
    end_gost_keyhash_lt (hashing_good init_good hpw)
  have heq : create_keys (end_gost_keyhash (hashing init_gost_keyhash pw))
      = sliceSubkeysSpec (end_gost_keyhash (hashing init_gost_keyhash pw)) :=
    create_keys_eq_slice _ hgood
  have hspec : deriveSubkeysSpecAmended pw
      = sliceSubkeysSpec (end_gost_keyhash (hashing init_gost_keyhash pw)) := rfl
  rw [derive_gost_subkeys_from_password, heq, ← hspec]

/-- Witness for C4 at a concrete one-byte password. -/
theorem C4_derivation_pipeline_witness :
    (∀ b ∈ [97], b < 256) ∧
    derive_gost_subkeys_from_password [97] = deriveSubkeysSpecAmended [97] :=
  ⟨by decide, C4_derivation_pipeline [97] (by decide)⟩

/-- C4 (counterexample): for the empty password the window cursor is 0,
so the remaining window length is 512; the code pads with 512 bytes of
value 0 (`(unsigned char)512`), not with bytes equal to the remaining
window length 512 as the claim states — no byte can equal 512. -/
theorem C4_counterexample_empty_password_pad :
    (hashing init_gost_keyhash []).x2 = 0 ∧
    keyhashPad (hashing init_gost_keyhash []) = List.replicate 512 0 ∧
    padSpecLiteral (hashing init_gost_keyhash []) = List.replicate 512 512 ∧
    keyhashPad (hashing init_gost_keyhash [])
      ≠ padSpecLiteral (hashing init_gost_keyhash []) := by
  have hx2 : (hashing init_gost_keyhash []).x2 = 0 := rfl
  have h2 : keyhashPad (hashing init_gost_keyhash []) = List.replicate 512 0 := by
    rw [keyhashPad, hx2]
  have h3 : padSpecLiteral (hashing init_gost_keyhash []) = List.replicate 512 512 := by
    rw [padSpecLiteral, hx2]
  refine ⟨hx2, h2, h3, ?_⟩
  rw [h2, h3]
  intro h
  have hmem : (0 : Nat) ∈ List.replicate 512 (512 : Nat) := by
    rw [← h]
    exact List.mem_replicate.mpr ⟨by norm_num, rfl⟩
  have := List.eq_of_mem_replicate hmem
  omega

/-- Security-relevant operations of `main` on the sensitive buffers, in
program order. -/
inductive MainEvent where
  | promptPassword : MainEvent
  | deriveSubkeys : MainEvent
  | zeroPassword : MainEvent
  | zeroSubkeys : MainEvent
  | runOperation : MainEvent
  | removeOutput : MainEvent
deriving DecidableEq

/-- Trace of `main` over the sensitive buffers, per exit path
(lines 613-669 of the C file), parametrized by which steps succeed:
`argsOk` (argument count and mode letter), `openInOk` and `openOutOk`
(the two `fopen` calls), and `opErr` (the `err` flag of the streaming
call). Before the password prompt nothing sensitive exists; after key
derivation the password buffer is zeroed by `memset`; no statement of
`main` ever zeroes the `subkeys` array, on any path. -/
def mainEvents (argsOk openInOk openOutOk opErr : Bool) : List MainEvent :=
  if argsOk = false then []
  else if openInOk = false then []
  else if openOutOk = false then []
  else
    [MainEvent.promptPassword, MainEvent.deriveSubkeys, MainEvent.zeroPassword,
     MainEvent.runOperation] ++ (if opErr then [MainEvent.removeOutput] else [])

/-- C8 (amended): on every exit path of an invocation the password buffer
is zeroed immediately after key derivation (whenever derivation happens
at all), but the key schedule is never zeroed on any path. -/
theorem C8_password_zeroed_subkeys_never (argsOk openInOk openOutOk opErr : Bool) :
    MainEvent.zeroSubkeys ∉ mainEvents argsOk openInOk openOutOk opErr ∧
    (MainEvent.deriveSubkeys ∈ mainEvents argsOk openInOk openOutOk opErr →
      (mainEvents argsOk openInOk openOutOk opErr).take 3
        = [MainEvent.promptPassword, MainEvent.deriveSubkeys, MainEvent.zeroPassword]) := by
  cases argsOk <;> cases openInOk <;> cases openOutOk <;> cases opErr <;> decide

/-- Witness for C8 (amended) on the successful-run path. -/
theorem C8_password_zeroed_subkeys_never_witness :
    MainEvent.deriveSubkeys ∈ mainEvents true true true false ∧
    (mainEvents true true true false).take 3
      = [MainEvent.promptPassword, MainEvent.deriveSubkeys, MainEvent.zeroPassword] :=
  ⟨by decide, (C8_password_zeroed_subkeys_never true true true false).2 (by decide)⟩

/-- C8 (counterexample): on the successful encrypt path the password is
zeroed but the key schedule is not — `main` performs no zeroization of
`subkeys` before the invocation ends, contradicting the claim that both
buffers are zeroed on every exit path. -/
theorem C8_counterexample_subkeys_not_zeroed :
    MainEvent.zeroPassword ∈ mainEvents true true true false ∧
    MainEvent.zeroSubkeys ∉ mainEvents true true true false := by
  decide

end Gost2128
